import Mathlib

/-!
# Verification of the streaming Top-K windowed aggregator and its peripherals

This file shallowly embeds the repository's source:

* `TopKWindowedAggregator.process` (Java/Flink): per-window counting with a
  `HashMap`, top-K selection with a bounded `java.util.PriorityQueue` min-heap
  keyed on the count, and a final stable descending sort (`List.sort` in Java
  is TimSort, which is stable).  The Java priority queue is an array-based
  binary heap with sift-up on `offer` and sift-down on `poll`; we embed exactly
  that algorithm, since iteration over the queue (`new ArrayList<>(heap)`)
  exposes the internal array order.  A `HashMap`'s iteration order is
  unspecified, so the entry set is taken as an input list.
* the Express URL shortener (`part_000`),
* the WebSocket room relay (`google-docs/websocket.js`).

Machinery that lives inside Flink (window assignment, the window scheduler)
is modelled from the spec, as marked on each such definition.
-/

/-- A key/count entry, the element type of the Java
`PriorityQueue<Map.Entry<String,Integer>>`. -/
abbrev Entry := String × Int

/-- Default entry used for out-of-range array reads (never reached on the
in-bounds accesses the code performs). -/
def dEntry : Entry := ("", 0)

/-- The entry stored at index `i` of the heap's backing array. -/
def entryAt (l : List Entry) (i : Nat) : Entry := (l[i]?).getD dEntry

/-- The count stored at index `i`; the Java comparator
`Comparator.comparingInt(Map.Entry::getValue)` compares exactly this. -/
def valAt (l : List Entry) (i : Nat) : Int := (entryAt l i).2

/-- Index of the parent of heap slot `k`, Java's `(k - 1) >>> 1`. -/
def parentIdx (k : Nat) : Nat := (k - 1) / 2

/-- Exchange the entries at slots `i` and `j` of the backing array. -/
def swapEntries (l : List Entry) (i j : Nat) : List Entry :=
  (l.set i (entryAt l j)).set j (entryAt l i)

theorem length_swapEntries (l : List Entry) (i j : Nat) :
    (swapEntries l i j).length = l.length := by
  simp [swapEntries]

theorem entryAt_swapEntries (l : List Entry) (i j m : Nat)
    (hi : i < l.length) (hj : j < l.length) :
    entryAt (swapEntries l i j) m =
      if m = j then entryAt l i else if m = i then entryAt l j else entryAt l m := by
  unfold swapEntries entryAt
  by_cases hmj : m = j
  · subst hmj
    rw [List.getElem?_set_eq_of_lt]
    · simp
    · simpa using hj
  · rw [List.getElem?_set_ne (fun h => hmj h.symm)]
    by_cases hmi : m = i
    · subst hmi
      rw [List.getElem?_set_eq_of_lt _ hi]
      simp [hmj]
    · rw [List.getElem?_set_ne (fun h => hmi h.symm)]
      simp [hmj, hmi]

theorem valAt_swapEntries (l : List Entry) (i j m : Nat)
    (hi : i < l.length) (hj : j < l.length) :
    valAt (swapEntries l i j) m =
      if m = j then valAt l i else if m = i then valAt l j else valAt l m := by
  unfold valAt
  rw [entryAt_swapEntries l i j m hi hj]
  by_cases hmj : m = j <;> by_cases hmi : m = i <;> simp [hmj, hmi] <;> split <;> rfl

/-- Exchanging the head of a list with the element at index `m` of its tail
is a permutation. -/
theorem swap_head_perm : ∀ (t : List Entry) (m : Nat) (x b : Entry),
    t[m]? = some b → List.Perm (b :: t.set m x) (x :: t) := by
  intro t
  induction t with
  | nil => intro m x b h; simp at h
  | cons c t' ih =>
    intro m x b h
    cases m with
    | zero =>
      simp at h
      subst h
      simpa using List.Perm.swap x c t'
    | succ m' =>
      simp at h
      have h2 := ih m' x b h
      have s1 : (c :: t').set (m' + 1) x = c :: t'.set m' x := by simp
      rw [s1]
      exact ((List.Perm.swap c b (t'.set m' x)).trans ((h2.cons c).trans
        (List.Perm.swap x c t')))

theorem swapEntries_perm : ∀ (l : List Entry) (i j : Nat),
    i < l.length → j < l.length → List.Perm (swapEntries l i j) l := by
  intro l
  induction l with
  | nil => intro i j hi _; simp at hi
  | cons x t ih =>
    intro i j hi hj
    cases i with
    | zero =>
      cases j with
      | zero => simp [swapEntries, entryAt]
      | succ m =>
        have hm : m < t.length := by simpa using hj
        have hb : t[m]? = some t[m] := List.getElem?_eq_getElem hm
        show List.Perm (((x :: t).set 0 (entryAt (x :: t) (m+1))).set (m+1)
          (entryAt (x :: t) 0)) (x :: t)
        have e1 : entryAt (x :: t) (m + 1) = t[m] := by simp [entryAt, hb]
        have e0 : entryAt (x :: t) 0 = x := by simp [entryAt]
        rw [e1, e0]
        show List.Perm (t[m] :: t.set m x) (x :: t)
        exact swap_head_perm t m x t[m] hb
    | succ i' =>
      cases j with
      | zero =>
        have hi' : i' < t.length := by simpa using hi
        have ha : t[i']? = some t[i'] := List.getElem?_eq_getElem hi'
        show List.Perm (((x :: t).set (i'+1) (entryAt (x :: t) 0)).set 0
          (entryAt (x :: t) (i'+1))) (x :: t)
        have e1 : entryAt (x :: t) (i' + 1) = t[i'] := by simp [entryAt, ha]
        have e0 : entryAt (x :: t) 0 = x := by simp [entryAt]
        rw [e1, e0]
        show List.Perm (t[i'] :: t.set i' x) (x :: t)
        exact swap_head_perm t i' x t[i'] ha
      | succ j' =>
        have hi' : i' < t.length := by simpa using hi
        have hj' : j' < t.length := by simpa using hj
        show List.Perm (((x :: t).set (i'+1) (entryAt (x :: t) (j'+1))).set (j'+1)
            (entryAt (x :: t) (i'+1))) (x :: t)
        have e1 : entryAt (x :: t) (j' + 1) = entryAt t j' := by simp [entryAt]
        have e2 : entryAt (x :: t) (i' + 1) = entryAt t i' := by simp [entryAt]
        rw [e1, e2]
        show List.Perm (x :: (t.set i' (entryAt t j')).set j' (entryAt t i')) (x :: t)
        exact (ih i' j' hi' hj').cons x

/-- `java.util.PriorityQueue.siftUp`, expressed with swaps: move the entry at
slot `k` up while it is strictly smaller than its parent (the comparator
breaks on `cmp >= 0`, i.e. moves only on a strict decrease). -/
def siftUpF : Nat → List Entry → Nat → List Entry
  | _, l, 0 => l
  | 0, l, _+1 => l
  | fuel+1, l, k+1 =>
    if valAt l (k+1) < valAt l (parentIdx (k+1)) then
      siftUpF fuel (swapEntries l (k+1) (parentIdx (k+1))) (parentIdx (k+1))
    else l

/-- Sift-up entry point; the slot index `k` itself bounds the number of
parent hops, so it serves as the structural fuel. -/
def siftUp (l : List Entry) (k : Nat) : List Entry := siftUpF k l k

/-- `PriorityQueue.offer`: append at the end of the array, then sift up. -/
def offer (l : List Entry) (x : Entry) : List Entry :=
  siftUp (l ++ [x]) l.length

/-- The binary min-heap invariant of the backing array: every non-root slot
is `≥` its parent, comparing counts. -/
def HeapInv (l : List Entry) : Prop :=
  ∀ j, 0 < j → j < l.length → valAt l (parentIdx j) ≤ valAt l j

theorem siftUpF_perm : ∀ (fuel k : Nat) (l : List Entry), k ≤ fuel →
    k < l.length → List.Perm (siftUpF fuel l k) l := by
  intro fuel
  induction fuel with
  | zero =>
    intro k l hkf _
    have hk0 : k = 0 := by omega
    subst hk0
    exact List.Perm.refl _
  | succ n IH =>
    intro k l hkf hk
    cases k with
    | zero => exact List.Perm.refl _
    | succ k' =>
      show List.Perm (if valAt l (k'+1) < valAt l (parentIdx (k'+1)) then
        siftUpF n (swapEntries l (k'+1) (parentIdx (k'+1))) (parentIdx (k'+1)) else l) l
      by_cases hlt : valAt l (k'+1) < valAt l (parentIdx (k'+1))
      · simp only [hlt, if_true]
        have hp : parentIdx (k'+1) < k'+1 := by simp [parentIdx]; omega
        have hplen : parentIdx (k'+1) < l.length := lt_trans hp hk
        have hlen : parentIdx (k'+1) < (swapEntries l (k'+1) (parentIdx (k'+1))).length := by
          rw [length_swapEntries]; exact hplen
        exact (IH (parentIdx (k'+1)) _ (by omega) hlen).trans
          (swapEntries_perm l (k'+1) (parentIdx (k'+1)) hk hplen)
      · simp [hlt]

theorem siftUp_perm (k : Nat) (l : List Entry) (hk : k < l.length) :
    List.Perm (siftUp l k) l :=
  siftUpF_perm k k l (le_refl k) hk

theorem length_siftUp (k : Nat) (l : List Entry) (hk : k < l.length) :
    (siftUp l k).length = l.length :=
  (siftUp_perm k l hk).length_eq

/-- In a heap, the root's count is `≤` the count at every slot. -/
theorem heapInv_root_le (l : List Entry) (h : HeapInv l) :
    ∀ j, j < l.length → valAt l 0 ≤ valAt l j := by
  intro j
  induction j using Nat.strong_induction_on with
  | _ j IH =>
    intro hj
    by_cases h0 : j = 0
    · subst h0; exact le_refl _
    · have hp : parentIdx j < j := by simp [parentIdx]; omega
      exact le_trans (IH (parentIdx j) hp (lt_trans hp hj)) (h j (Nat.pos_of_ne_zero h0) hj)

/-- In a heap, the root entry's count is a lower bound for every member. -/
theorem heapInv_root_min (l : List Entry) (h : HeapInv l) (e : Entry) (he : e ∈ l) :
    valAt l 0 ≤ e.2 := by
  obtain ⟨j, hj, hget⟩ := List.getElem_of_mem he
  have : valAt l j = e.2 := by
    simp [valAt, entryAt, List.getElem?_eq_getElem hj, hget]
  rw [← this]
  exact heapInv_root_le l h j hj

/-- The state sift-up maintains: the heap invariant holds at every edge not
ending in `k`, and the children of `k` (if any) already dominate `k`'s
parent. -/
def SiftUpOk (l : List Entry) (k : Nat) : Prop :=
  (∀ j, 0 < j → j < l.length → j ≠ k → valAt l (parentIdx j) ≤ valAt l j) ∧
  (∀ j, 0 < j → j < l.length → parentIdx j = k → 0 < k →
    valAt l (parentIdx k) ≤ valAt l j)

theorem siftUpF_heapInv : ∀ (fuel k : Nat) (l : List Entry), k ≤ fuel →
    k < l.length → SiftUpOk l k → HeapInv (siftUpF fuel l k) := by
  intro fuel
  induction fuel with
  | zero =>
    intro k l hkf hk hok
    have hk0 : k = 0 := by omega
    subst hk0
    intro j hj0 hjlen
    exact hok.1 j hj0 hjlen (Nat.pos_iff_ne_zero.mp hj0)
  | succ n IH =>
    intro k l hkf hk hok
    cases k with
    | zero =>
      intro j hj0 hjlen
      exact hok.1 j hj0 hjlen (Nat.pos_iff_ne_zero.mp hj0)
    | succ k' =>
      show HeapInv (if valAt l (k'+1) < valAt l (parentIdx (k'+1)) then
        siftUpF n (swapEntries l (k'+1) (parentIdx (k'+1))) (parentIdx (k'+1)) else l)
      set p := parentIdx (k'+1) with hpdef
      have hpk : p < k'+1 := by simp [hpdef, parentIdx]; omega
      have hplen : p < l.length := lt_trans hpk hk
      have hkp : k'+1 ≠ p := Nat.ne_of_gt hpk
      have hpk' : p ≠ k'+1 := Nat.ne_of_lt hpk
      by_cases hlt : valAt l (k'+1) < valAt l p
      · simp only [hlt, if_true]
        apply IH
        · omega
        · rw [length_swapEntries]; exact hplen
        · have hv := fun m => valAt_swapEntries l (k'+1) p m hk hplen
          constructor
          · -- heap property at every edge not ending in `p`, in the swapped array
            intro j hj0 hjlen hjp
            rw [length_swapEntries] at hjlen
            rw [hv j, hv (parentIdx j)]
            by_cases hjk : j = k'+1
            · subst hjk
              simp only [← hpdef, if_pos rfl, if_neg hjp]
              exact le_of_lt hlt
            · simp only [if_neg hjp, if_neg hjk]
              by_cases hq_p : parentIdx j = p
              · simp only [hq_p, if_pos rfl]
                have hbase : valAt l p ≤ valAt l j := by
                  have hb := hok.1 j hj0 hjlen hjk
                  rwa [hq_p] at hb
                exact le_trans (le_of_lt hlt) hbase
              · simp only [if_neg hq_p]
                by_cases hq_k : parentIdx j = k'+1
                · simp only [hq_k, if_pos rfl]
                  have := hok.2 j hj0 hjlen hq_k (Nat.succ_pos k')
                  rwa [← hpdef] at this
                · simp only [if_neg hq_k]
                  exact hok.1 j hj0 hjlen hjk
          · -- the children of `p` dominate `p`'s parent, in the swapped array
            intro j hj0 hjlen hqp hp0
            rw [length_swapEntries] at hjlen
            rw [hv j, hv (parentIdx p)]
            have hpp : parentIdx p < p := by simp [parentIdx]; omega
            have hppp : parentIdx p ≠ p := Nat.ne_of_lt hpp
            have hppk : parentIdx p ≠ k'+1 := Nat.ne_of_lt (lt_trans hpp hpk)
            simp only [if_neg hppp, if_neg hppk]
            by_cases hjk : j = k'+1
            · subst hjk
              simp only [if_neg hkp, if_pos rfl]
              exact hok.1 p hp0 hplen hpk'
            · have hjgtp : p < j := by
                have hq2 : (j - 1) / 2 = p := hqp
                omega
              have hjp : j ≠ p := Nat.ne_of_gt hjgtp
              simp only [if_neg hjp, if_neg hjk]
              have hbase : valAt l p ≤ valAt l j := by
                have hb := hok.1 j hj0 hjlen hjk
                rwa [hqp] at hb
              exact le_trans (hok.1 p hp0 hplen hpk') hbase
      · simp only [hlt, if_false]
        intro j hj0 hjlen
        by_cases hjk : j = k'+1
        · subst hjk
          rw [← hpdef]
          exact le_of_not_lt hlt
        · exact hok.1 j hj0 hjlen hjk

theorem siftUp_heapInv (k : Nat) (l : List Entry) (hk : k < l.length)
    (hok : SiftUpOk l k) : HeapInv (siftUp l k) :=
  siftUpF_heapInv k k l (le_refl k) hk hok

theorem entryAt_append_lt (l l' : List Entry) (i : Nat) (h : i < l.length) :
    entryAt (l ++ l') i = entryAt l i := by
  simp [entryAt, List.getElem?_append, h]

theorem valAt_append_lt (l l' : List Entry) (i : Nat) (h : i < l.length) :
    valAt (l ++ l') i = valAt l i := by
  simp [valAt, entryAt_append_lt l l' i h]

theorem offer_perm (l : List Entry) (x : Entry) :
    List.Perm (offer l x) (x :: l) := by
  have h1 : l.length < (l ++ [x]).length := by simp
  exact (siftUp_perm l.length (l ++ [x]) h1).trans (@List.perm_append_comm Entry l [x])

theorem length_offer (l : List Entry) (x : Entry) :
    (offer l x).length = l.length + 1 := by
  have := (offer_perm l x).length_eq
  simpa using this

theorem offer_heapInv (l : List Entry) (x : Entry) (h : HeapInv l) :
    HeapInv (offer l x) := by
  apply siftUp_heapInv l.length (l ++ [x]) (by simp)
  constructor
  · intro j hj0 hjlen hjne
    have hjl : j < l.length := by
      simp at hjlen
      omega
    have hpl : parentIdx j < l.length := lt_trans (by simp [parentIdx]; omega) hjl
    rw [valAt_append_lt l [x] j hjl, valAt_append_lt l [x] (parentIdx j) hpl]
    exact h j hj0 hjl
  · intro j hj0 hjlen hpar _
    have : j ≤ l.length := by simp at hjlen; omega
    have : 2 * l.length + 1 ≤ j := by simp [parentIdx] at hpar; omega
    omega

/-- The child of slot `k` selected by `PriorityQueue.siftDown`: the left child
`2k+1`, unless the right child `2k+2` exists and compares strictly smaller. -/
def childIdx (l : List Entry) (k : Nat) : Nat :=
  if 2*k+2 < l.length ∧ valAt l (2*k+2) < valAt l (2*k+1) then 2*k+2 else 2*k+1

theorem childIdx_gt (l : List Entry) (k : Nat) : k < childIdx l k := by
  unfold childIdx; split <;> omega

theorem childIdx_lt_len (l : List Entry) (k : Nat) (h : 2*k+1 < l.length) :
    childIdx l k < l.length := by
  unfold childIdx; split <;> omega

theorem childIdx_parent (l : List Entry) (k : Nat) :
    parentIdx (childIdx l k) = k := by
  unfold childIdx parentIdx; split <;> omega

theorem childIdx_min_left (l : List Entry) (k : Nat) :
    valAt l (childIdx l k) ≤ valAt l (2*k+1) := by
  unfold childIdx
  split <;> rename_i hsp
  · exact le_of_lt hsp.2
  · exact le_refl _

theorem childIdx_min_right (l : List Entry) (k : Nat) (h : 2*k+2 < l.length) :
    valAt l (childIdx l k) ≤ valAt l (2*k+2) := by
  unfold childIdx
  split <;> rename_i hsp
  · exact le_refl _
  · rw [not_and_or] at hsp
    rcases hsp with h1 | h2
    · exact absurd h h1
    · exact le_of_not_lt h2

/-- `java.util.PriorityQueue.siftDown`, expressed with swaps: move the entry
at slot `k` down, always exchanging with the smaller child, while that child
compares strictly smaller. -/
def siftDownF : Nat → List Entry → Nat → List Entry
  | 0, l, _ => l
  | fuel+1, l, k =>
    if 2*k+1 < l.length then
      if valAt l (childIdx l k) < valAt l k then
        siftDownF fuel (swapEntries l k (childIdx l k)) (childIdx l k)
      else l
    else l

/-- Sift-down entry point; the array length bounds the number of child hops,
so it serves as the structural fuel. -/
def siftDown (l : List Entry) (k : Nat) : List Entry := siftDownF l.length l k

theorem siftDownF_perm : ∀ (fuel : Nat) (l : List Entry) (k : Nat),
    List.Perm (siftDownF fuel l k) l := by
  intro fuel
  induction fuel with
  | zero =>
    intro l k
    exact List.Perm.refl _
  | succ n IH =>
    intro l k
    show List.Perm (if 2*k+1 < l.length then
      (if valAt l (childIdx l k) < valAt l k then
        siftDownF n (swapEntries l k (childIdx l k)) (childIdx l k)
      else l) else l) l
    by_cases h1 : 2*k+1 < l.length
    · simp only [h1, if_true]
      by_cases h2 : valAt l (childIdx l k) < valAt l k
      · simp only [h2, if_true]
        have hc1 := childIdx_gt l k
        have hc2 := childIdx_lt_len l k h1
        have hk : k < l.length := by omega
        exact (IH _ _).trans (swapEntries_perm l k (childIdx l k) hk hc2)
      · simp [h2]
    · simp [h1]

theorem siftDown_perm (l : List Entry) (k : Nat) :
    List.Perm (siftDown l k) l :=
  siftDownF_perm l.length l k

theorem length_siftDown (l : List Entry) (k : Nat) :
    (siftDown l k).length = l.length :=
  (siftDown_perm l k).length_eq

/-- The state sift-down maintains: the heap invariant holds at every edge not
starting at `k`, and the children of `k` (if any) already dominate `k`'s
parent. -/
def SiftDownOk (l : List Entry) (k : Nat) : Prop :=
  (∀ j, 0 < j → j < l.length → parentIdx j ≠ k → valAt l (parentIdx j) ≤ valAt l j) ∧
  (∀ j, 0 < j → j < l.length → parentIdx j = k → 0 < k →
    valAt l (parentIdx k) ≤ valAt l j)

theorem siftDownF_heapInv : ∀ (fuel : Nat) (l : List Entry) (k : Nat),
    l.length - k ≤ fuel → SiftDownOk l k → HeapInv (siftDownF fuel l k) := by
  intro fuel
  induction fuel with
  | zero =>
    intro l k hf hok
    show HeapInv l
    intro j hj0 hjlen
    apply hok.1 j hj0 hjlen
    intro hcon
    have : (j - 1) / 2 = k := hcon
    omega
  | succ n IH =>
    intro l k hf hok
    show HeapInv (if 2*k+1 < l.length then
      (if valAt l (childIdx l k) < valAt l k then
        siftDownF n (swapEntries l k (childIdx l k)) (childIdx l k)
      else l) else l)
    by_cases h1 : 2*k+1 < l.length
    · simp only [h1, if_true]
      set c := childIdx l k with hcdef
      have hck : k < c := childIdx_gt l k
      have hclen : c < l.length := childIdx_lt_len l k h1
      have hcpar : parentIdx c = k := childIdx_parent l k
      have hc0 : 0 < c := by omega
      have hkc : k ≠ c := Nat.ne_of_lt hck
      have hklen : k < l.length := by omega
      by_cases h2 : valAt l c < valAt l k
      · simp only [h2, if_true]
        apply IH
        · rw [length_swapEntries]; omega
        · have hv := fun m => valAt_swapEntries l k c m hklen hclen
          constructor
          · -- heap property at every edge not starting at `c`
            intro j hj0 hjlen hqc
            rw [length_swapEntries] at hjlen
            rw [hv j, hv (parentIdx j)]
            by_cases hjc : j = c
            · subst hjc
              simp only [hcpar, if_neg hkc, if_pos rfl]
              exact le_of_lt h2
            · by_cases hjk : j = k
              · subst hjk
                have hj0' : 0 < j := hj0
                have hpj : parentIdx j < j := by
                  have : (j - 1) / 2 < j := by omega
                  exact this
                have hpjc : parentIdx j ≠ c := by omega
                have hpjk : parentIdx j ≠ j := by omega
                simp only [if_neg hpjc, if_neg hpjk, if_neg (Nat.ne_of_lt hck), if_pos rfl]
                exact hok.2 c hc0 hclen hcpar hj0'
              · simp only [if_neg hjc, if_neg hjk]
                by_cases hqk : parentIdx j = k
                · -- `j` is the sibling of `c`
                  simp only [hqk, if_neg hkc, if_pos rfl]
                  have hj12 : j = 2*k+1 ∨ j = 2*k+2 := by
                    have : (j - 1) / 2 = k := hqk
                    omega
                  rcases hj12 with hj1 | hj2
                  · rw [hj1]; exact hcdef ▸ childIdx_min_left l k
                  · rw [hj2]; exact hcdef ▸ childIdx_min_right l k (hj2 ▸ hjlen)
                · simp only [if_neg hqc, if_neg hqk]
                  exact hok.1 j hj0 hjlen hqk
          · -- the children of `c` dominate `c`'s parent `k`, in the swapped array
            intro j hj0 hjlen hqc _
            rw [length_swapEntries] at hjlen
            rw [hv j, hv (parentIdx c)]
            have hjgtc : c < j := by
              have : (j - 1) / 2 = c := hqc
              omega
            have hjc : j ≠ c := Nat.ne_of_gt hjgtc
            have hjk : j ≠ k := by omega
            simp only [hcpar, if_neg hkc, if_pos rfl, if_neg hjc, if_neg hjk]
            have hb := hok.1 j hj0 hjlen (by rw [hqc]; exact Nat.ne_of_gt hck)
            rwa [hqc] at hb
      · simp only [h2, if_false]
        intro j hj0 hjlen
        by_cases hqk : parentIdx j = k
        · rw [hqk]
          have hj12 : j = 2*k+1 ∨ j = 2*k+2 := by
            have : (j - 1) / 2 = k := hqk
            omega
          have hle : valAt l c ≤ valAt l j := by
            rcases hj12 with hj1 | hj2
            · rw [hj1]; exact hcdef ▸ childIdx_min_left l k
            · rw [hj2]; exact hcdef ▸ childIdx_min_right l k (hj2 ▸ hjlen)
          exact le_trans (le_of_not_lt h2) hle
        · exact hok.1 j hj0 hjlen hqk
    · simp only [h1, if_false]
      intro j hj0 hjlen
      apply hok.1 j hj0 hjlen
      intro hcon
      have : (j - 1) / 2 = k := hcon
      omega

theorem siftDown_heapInv (l : List Entry) (k : Nat) (hok : SiftDownOk l k) :
    HeapInv (siftDown l k) :=
  siftDownF_heapInv l.length l k (by omega) hok

/-- `PriorityQueue.poll`: return the root; move the last array slot to the
root and sift it down. -/
def poll (l : List Entry) : Option (Entry × List Entry) :=
  match l with
  | [] => none
  | r :: rest =>
    if rest.isEmpty then some (r, [])
    else some (r, siftDown (rest.getLastD dEntry :: rest.dropLast) 0)

theorem poll_cons_isSome (r : Entry) (t : List Entry) :
    (poll (r :: t)).isSome = true := by
  by_cases h : t.isEmpty <;> simp [poll, h]

theorem getLastD_eq_getLast (l : List Entry) (hl : l ≠ []) (d : Entry) :
    l.getLastD d = l.getLast hl := by
  rw [List.getLastD_eq_getLast?, List.getLast?_eq_getLast l hl]
  rfl

theorem valAt_cons_succ (x : Entry) (t : List Entry) (m : Nat) :
    valAt (x :: t) (m + 1) = valAt t m := by
  simp [valAt, entryAt]

theorem valAt_reroot (rest : List Entry) (m : Nat) (hm1 : 1 ≤ m)
    (hmlen : m < rest.length) :
    valAt (rest.getLastD dEntry :: rest.dropLast) m = valAt rest (m - 1) := by
  obtain ⟨m', rfl⟩ : ∃ m', m = m' + 1 := ⟨m - 1, by omega⟩
  have hdl : m' < rest.dropLast.length := by
    rw [List.length_dropLast]; omega
  have hr : m' < rest.length := by omega
  rw [valAt_cons_succ]
  simp only [valAt, entryAt, Nat.add_sub_cancel]
  rw [List.getElem?_eq_getElem hdl, List.getElem?_eq_getElem hr]
  simp only [Option.getD_some]
  congr 1
  rw [List.getElem_dropLast]

theorem poll_spec (l : List Entry) (h : HeapInv l) (e : Entry) (l' : List Entry)
    (hp : poll l = some (e, l')) :
    List.Perm (e :: l') l ∧ HeapInv l' ∧ (∀ x ∈ l, e.2 ≤ x.2) := by
  match l with
  | [] => simp [poll] at hp
  | r :: rest =>
    have hroot : valAt (r :: rest) 0 = r.2 := by simp [valAt, entryAt]
    have hmin : ∀ x ∈ r :: rest, r.2 ≤ x.2 := by
      intro x hx
      rw [← hroot]
      exact heapInv_root_min _ h x hx
    match rest with
    | [] =>
      simp only [poll, List.isEmpty_nil, if_true, Option.some_inj] at hp
      injection hp with he hl'
      subst he
      subst hl'
      refine ⟨?_, ?_, ?_⟩
      · exact List.Perm.refl _
      · intro j hj0 hjlen; simp at hjlen
      · exact hmin
    | r2 :: t2 =>
      simp only [poll, List.isEmpty_cons, Bool.false_eq_true, if_false,
        Option.some_inj] at hp
      injection hp with he hl'
      subst he
      subst hl'
      have hne : r2 :: t2 ≠ [] := by simp
      set rest := r2 :: t2 with hrdef
      set l0 := rest.getLastD dEntry :: rest.dropLast with hl0def
      have hrl : 0 < rest.length := by rw [hrdef]; simp
      have hlen0 : l0.length = rest.length := by
        rw [hl0def]
        simp only [List.length_cons, List.length_dropLast]
        omega
      -- the re-rooted array is a permutation of `rest`
      have hperm0 : List.Perm l0 rest := by
        rw [hl0def, getLastD_eq_getLast rest hne]
        have hsplit : rest.dropLast ++ [rest.getLast hne] = rest :=
          List.dropLast_append_getLast hne
        have hstep : List.Perm (rest.getLast hne :: rest.dropLast)
            (rest.dropLast ++ [rest.getLast hne]) :=
          @List.perm_append_comm Entry [rest.getLast hne] rest.dropLast
        rw [hsplit] at hstep
        exact hstep
      have hpermd : List.Perm (siftDown l0 0) l0 :=
        siftDown_perm l0 0
      refine ⟨?_, ?_, ?_⟩
      · exact ((hpermd.trans hperm0).cons r)
      · apply siftDown_heapInv l0 0
        constructor
        · intro j hj0 hjlen hq0
          have hq1 : 1 ≤ parentIdx j := Nat.pos_of_ne_zero hq0
          have hqj : parentIdx j < j := by
            have hx : (j - 1) / 2 < j := by omega
            exact hx
          rw [hlen0] at hjlen
          rw [valAt_reroot rest j hj0 hjlen,
              valAt_reroot rest (parentIdx j) hq1 (by omega)]
          have e1 : valAt rest (j - 1) = valAt (r :: rest) j := by
            rw [← valAt_cons_succ r rest (j-1)]
            congr 1
            omega
          have e2 : valAt rest (parentIdx j - 1) = valAt (r :: rest) (parentIdx j) := by
            rw [← valAt_cons_succ r rest (parentIdx j - 1)]
            congr 1
            omega
          rw [e1, e2]
          exact h j hj0 (by simp only [List.length_cons]; omega)
        · intro j _ _ _ hcon
          exact absurd hcon (lt_irrefl 0)
      · exact hmin

/-- One iteration of the scan loop in `process`:
`heap.offer(entry); if (heap.size() > K) heap.poll();`. -/
def heapStep (K : Nat) (h : List Entry) (e : Entry) : List Entry :=
  if K < (offer h e).length then
    match poll (offer h e) with
    | some (_, h2) => h2
    | none => offer h e
  else offer h e

/-- The whole scan of `counts.entrySet()` (in iteration order) through the
bounded min-heap; returns the final internal array. -/
def topKScan (K : Nat) (entries : List Entry) : List Entry :=
  entries.foldl (heapStep K) []

/-- Loop invariant of the scan: the heap is a binary min-heap holding, with
some dropped residue, a permutation of the processed prefix; it has
`min #processed K` elements, every dropped count is `≤` every held count,
and nothing has been dropped while the heap is not yet full. -/
def ScanInv (K : Nat) (processed heap dropped : List Entry) : Prop :=
  HeapInv heap ∧ List.Perm (heap ++ dropped) processed ∧
  heap.length = min processed.length K ∧
  (∀ a ∈ heap, ∀ x ∈ dropped, x.2 ≤ a.2) ∧
  (dropped = [] ∨ heap.length = K)

theorem heapStep_inv (K : Nat) (processed heap dropped : List Entry) (e : Entry)
    (hI : ScanInv K processed heap dropped) :
    ∃ dropped', ScanInv K (processed ++ [e]) (heapStep K heap e) dropped' := by
  obtain ⟨hHeap, hPerm, hLen, hLB, hFull⟩ := hI
  unfold heapStep
  set h1 := offer heap e with hh1
  have hh1perm : List.Perm h1 (e :: heap) := offer_perm heap e
  have hh1heap : HeapInv h1 := offer_heapInv heap e hHeap
  have hh1len : h1.length = heap.length + 1 := length_offer heap e
  by_cases hover : K < h1.length
  · simp only [hover, if_true]
    -- the heap was full: poll the minimum back out
    have hfull : heap.length = K := by omega
    have hplen : K ≤ processed.length := by omega
    have hne : h1 ≠ [] := by
      intro hcon
      rw [hcon] at hh1len
      simp at hh1len
    obtain ⟨r, t, hrt⟩ := List.exists_cons_of_ne_nil hne
    have hsome : (poll h1).isSome = true := by rw [hrt]; exact poll_cons_isSome r t
    obtain ⟨⟨m, h2⟩, hpoll⟩ := Option.isSome_iff_exists.mp hsome
    rw [hpoll]
    show ∃ dropped', ScanInv K (processed ++ [e]) h2 dropped'
    obtain ⟨hmh2, hh2heap, hmmin⟩ := poll_spec h1 hh1heap m h2 hpoll
    have hlen2 : h2.length + 1 = h1.length := by
      have hx := hmh2.length_eq
      simpa using hx
    refine ⟨m :: dropped, hh2heap, ?_, ?_, ?_, ?_⟩
    · -- h2 ++ m :: dropped ~ processed ++ [e]
      have p1 : List.Perm (h2 ++ m :: dropped) ((m :: h2) ++ dropped) :=
        List.perm_middle
      have p2 : List.Perm ((m :: h2) ++ dropped) (h1 ++ dropped) :=
        hmh2.append_right dropped
      have p3 : List.Perm (h1 ++ dropped) ((e :: heap) ++ dropped) :=
        hh1perm.append_right dropped
      have p4 : List.Perm (e :: (heap ++ dropped)) (e :: processed) :=
        hPerm.cons e
      have p5 : List.Perm (e :: processed) (processed ++ [e]) := by
        simpa using (@List.perm_middle Entry e processed []).symm
      exact (((p1.trans p2).trans p3).trans p4).trans p5
    · simp only [List.length_append, List.length_cons, List.length_nil]
      omega
    · intro a ha x hx
      have hah1 : a ∈ h1 := hmh2.mem_iff.mp (List.mem_cons_of_mem m ha)
      rcases List.mem_cons.mp hx with hxm | hxd
      · subst hxm
        exact hmmin a hah1
      · by_cases hme : m = e
        · -- the polled minimum is the new element itself, so the heap body
          -- is unchanged as a multiset and `a` is an old heap member
          have hperm_h2 : List.Perm h2 heap := by
            have hx1 : List.Perm (m :: h2) (e :: heap) := hmh2.trans hh1perm
            rw [hme] at hx1
            exact hx1.cons_inv
          exact hLB a (hperm_h2.mem_iff.mp ha) x hxd
        · rcases List.mem_cons.mp (hh1perm.mem_iff.mp hah1) with hae | hah
          · -- `a` is the new element `e`; the dropped `x` is under the polled
            -- minimum `m`, which in this sub-case is an old heap member.
            subst hae
            have hmheap : m ∈ heap := by
              have hmh1 : m ∈ h1 := hmh2.mem_iff.mp (List.mem_cons_self m h2)
              rcases List.mem_cons.mp (hh1perm.mem_iff.mp hmh1) with hc | hc
              · exact absurd hc hme
              · exact hc
            exact le_trans (hLB m hmheap x hxd) (hmmin a hah1)
          · exact hLB a hah x hxd
    · right
      omega
  · simp only [hover, if_false]
    have hdrop : dropped = [] := by
      rcases hFull with hd | hfull
      · exact hd
      · omega
    subst hdrop
    refine ⟨[], hh1heap, ?_, ?_, ?_, Or.inl rfl⟩
    · have p0 : List.Perm (h1 ++ []) h1 := by simp
      have p1 : List.Perm heap processed := by simpa using hPerm
      have p2 : List.Perm (e :: processed) (processed ++ [e]) := by
        simpa using (@List.perm_middle Entry e processed []).symm
      exact ((p0.trans hh1perm).trans (p1.cons e)).trans p2
    · simp only [List.length_append, List.length_cons, List.length_nil]
      omega
    · intro a _ x hx
      simp at hx

theorem topKScan_inv (K : Nat) (entries : List Entry) :
    ∃ dropped, ScanInv K entries (topKScan K entries) dropped := by
  suffices haux : ∀ (es processed heap dropped : List Entry),
      ScanInv K processed heap dropped →
      ∃ dropped', ScanInv K (processed ++ es) (es.foldl (heapStep K) heap) dropped' by
    have hbase : ScanInv K [] [] [] := by
      refine ⟨?_, ?_, ?_, ?_, Or.inl rfl⟩
      · intro j hj0 hjlen; simp at hjlen
      · simp
      · simp
      · intro a ha; simp at ha
    obtain ⟨d, hd⟩ := haux entries [] [] [] hbase
    exact ⟨d, by simpa using hd⟩
  intro es
  induction es with
  | nil =>
    intro processed heap dropped hI
    exact ⟨dropped, by simpa using hI⟩
  | cons e es ih =>
    intro processed heap dropped hI
    obtain ⟨d1, hd1⟩ := heapStep_inv K processed heap dropped e hI
    obtain ⟨d2, hd2⟩ := ih (processed ++ [e]) (heapStep K heap e) d1 hd1
    refine ⟨d2, ?_⟩
    have heq : processed ++ e :: es = (processed ++ [e]) ++ es := by simp
    rw [heq]
    exact hd2

/-- Lexicographic comparison of key strings by character code, the order
Java's `String.compareTo` induces on keys.  Defined structurally over the
character lists so that it is kernel-reducible. -/
def charListLe : List Char → List Char → Bool
  | [], _ => true
  | _ :: _, [] => false
  | c :: a, d :: b =>
    if c.toNat < d.toNat then true
    else if d.toNat < c.toNat then false
    else charListLe a b

/-- Key comparison, `a.compareTo(b) <= 0` in Java. -/
def keyLe (a b : String) : Bool := charListLe a.data b.data

theorem charListLe_total : ∀ a b, charListLe a b = true ∨ charListLe b a = true := by
  intro a
  induction a with
  | nil => intro b; left; rfl
  | cons c a ih =>
    intro b
    cases b with
    | nil => right; rfl
    | cons d b =>
      by_cases h1 : c.toNat < d.toNat
      · left; simp [charListLe, h1]
      · by_cases h2 : d.toNat < c.toNat
        · right; simp [charListLe, h2]
        · rcases ih b with h | h
          · left; simp [charListLe, h1, h2, h]
          · right
            have h1' : ¬ d.toNat < c.toNat := h2
            have h2' : ¬ c.toNat < d.toNat := h1
            simp [charListLe, h1', h2', h]

theorem charListLe_trans : ∀ a b c, charListLe a b = true → charListLe b c = true →
    charListLe a c = true := by
  intro a
  induction a with
  | nil => intro b c _ _; rfl
  | cons x a ih =>
    intro b c hab hbc
    cases b with
    | nil => simp [charListLe] at hab
    | cons y b =>
      cases c with
      | nil => simp [charListLe] at hbc
      | cons z c =>
        simp only [charListLe] at hab hbc ⊢
        rcases Nat.lt_trichotomy x.toNat y.toNat with hxy | hxy | hxy
        · rcases Nat.lt_trichotomy y.toNat z.toNat with hyz | hyz | hyz
          · have hxz : x.toNat < z.toNat := by omega
            simp [hxz]
          · have hxz : x.toNat < z.toNat := by omega
            simp [hxz]
          · have h1 : ¬ y.toNat < z.toNat := by omega
            simp [h1, hyz] at hbc
        · rcases Nat.lt_trichotomy y.toNat z.toNat with hyz | hyz | hyz
          · have hxz : x.toNat < z.toNat := by omega
            simp [hxz]
          · have c1 : ¬ x.toNat < y.toNat := by omega
            have c2 : ¬ y.toNat < x.toNat := by omega
            have c3 : ¬ y.toNat < z.toNat := by omega
            have c4 : ¬ z.toNat < y.toNat := by omega
            have c5 : ¬ x.toNat < z.toNat := by omega
            have c6 : ¬ z.toNat < x.toNat := by omega
            simp only [c1, c2, if_false] at hab
            simp only [c3, c4, if_false] at hbc
            simp only [c5, c6, if_false]
            exact ih b c hab hbc
          · have h1 : ¬ y.toNat < z.toNat := by omega
            simp [h1, hyz] at hbc
        · have h1 : ¬ x.toNat < y.toNat := by omega
          simp [h1, hxy] at hab

/-- The order the code actually sorts by: the comparator
`(a, b) -> b.getValue().compareTo(a.getValue())`, i.e. count descending,
with no secondary key. -/
def byCountDesc (a b : Entry) : Prop := b.2 ≤ a.2

instance : DecidableRel byCountDesc :=
  fun a b => inferInstanceAs (Decidable (b.2 ≤ a.2))

instance : IsTotal Entry byCountDesc := ⟨fun a b => le_total b.2 a.2⟩

instance : IsTrans Entry byCountDesc := ⟨fun _ _ _ h1 h2 => le_trans h2 h1⟩

/-- `process` steps 2–3 for one window's counts, as the code performs them:
scan the entries (in map-iteration order) through the bounded min-heap, copy
the heap's internal array (`new ArrayList<>(heap)`), and sort it with Java's
stable `List.sort` by count descending.  The stable sort is modelled by
insertion sort, which computes the same (unique) stable result as TimSort. -/
def selectTopK (entries : List Entry) (K : Nat) : List Entry :=
  List.insertionSort byCountDesc (topKScan K entries)

/-- Modelled from the spec: the deterministic ordering §4.3 fixes — count
descending, ties broken by key ascending (lexicographic). -/
def specLe (a b : Entry) : Prop :=
  b.2 < a.2 ∨ (a.2 = b.2 ∧ keyLe a.1 b.1 = true)

instance : DecidableRel specLe :=
  fun a b => inferInstanceAs (Decidable (b.2 < a.2 ∨ (a.2 = b.2 ∧ keyLe a.1 b.1 = true)))

instance : IsTotal Entry specLe := by
  constructor
  intro a b
  rcases lt_trichotomy a.2 b.2 with h | h | h
  · right; left; exact h
  · rcases charListLe_total a.1.data b.1.data with hk | hk
    · left; right; exact ⟨h, hk⟩
    · right; right; exact ⟨h.symm, hk⟩
  · left; left; exact h

instance : IsTrans Entry specLe := by
  constructor
  intro a b c hab hbc
  rcases hab with h1 | ⟨h1, k1⟩
  · rcases hbc with h2 | ⟨h2, _⟩
    · left; exact lt_trans h2 h1
    · left; rw [← h2]; exact h1
  · rcases hbc with h2 | ⟨h2, k2⟩
    · left; rw [h1]; exact h2
    · right; exact ⟨h1.trans h2, charListLe_trans _ _ _ k1 k2⟩

/-- Modelled from the spec: the reference Top-K of §4.3 — sort all entries
with the deterministic order and take the first `K`. -/
def referenceTopK (entries : List Entry) (K : Nat) : List Entry :=
  (List.insertionSort specLe entries).take K

/-- A nonempty list of integers has a maximum member. -/
theorem exists_max_int (l : List Int) (hl : l ≠ []) :
    ∃ v, v ∈ l ∧ ∀ x ∈ l, x ≤ v := by
  induction l with
  | nil => exact absurd rfl hl
  | cons a t ih =>
    cases t with
    | nil =>
      refine ⟨a, by simp, ?_⟩
      intro x hx
      simp at hx
      rw [hx]
    | cons b t2 =>
      obtain ⟨v, hv1, hv2⟩ := ih (by simp)
      by_cases h : a ≤ v
      · refine ⟨v, List.mem_cons_of_mem a hv1, ?_⟩
        intro x hx
        rcases List.mem_cons.mp hx with hxa | hx2
        · rw [hxa]; exact h
        · exact hv2 x hx2
      · refine ⟨a, List.mem_cons_self a _, ?_⟩
        intro x hx
        rcases List.mem_cons.mp hx with hxa | hx2
        · rw [hxa]
        · exact le_trans (hv2 x hx2) (le_of_not_le h)

/-- Selection uniqueness: two sub-multisets of the same multiset of integers
that have the same size and each dominate their complement consist of the
same values. -/
theorem topSelect_unique : ∀ (n : Nat) (A A1 B B1 : List Int),
    A.length = n → List.Perm (A ++ A1) (B ++ B1) → A.length = B.length →
    (∀ a ∈ A, ∀ x ∈ A1, x ≤ a) → (∀ b ∈ B, ∀ y ∈ B1, y ≤ b) →
    List.Perm A B := by
  intro n
  induction n with
  | zero =>
    intro A A1 B B1 hA _ hlen _ _
    have hA0 : A = [] := List.length_eq_zero.mp hA
    have hB0 : B = [] := List.length_eq_zero.mp (by rw [← hlen, hA])
    rw [hA0, hB0]
  | succ n ih =>
    intro A A1 B B1 hA hperm hlen hcA hcB
    have hAne : A ≠ [] := by
      intro hcon; rw [hcon] at hA; simp at hA
    have hBne : B ≠ [] := by
      intro hcon
      rw [hcon] at hlen
      rw [hA] at hlen
      simp at hlen
    have hMne : A ++ A1 ≠ [] := by
      intro hcon
      exact hAne (List.append_eq_nil.mp hcon).1
    obtain ⟨v, hv1, hv2⟩ := exists_max_int (A ++ A1) hMne
    have hv1' : v ∈ B ++ B1 := hperm.mem_iff.mp hv1
    have hv2' : ∀ x ∈ B ++ B1, x ≤ v := fun x hx => hv2 x (hperm.mem_iff.mpr hx)
    have hvA : v ∈ A := by
      rcases List.mem_append.mp hv1 with h | h
      · exact h
      · obtain ⟨a0, ha0⟩ := List.exists_mem_of_ne_nil A hAne
        have h1 : v ≤ a0 := hcA a0 ha0 v h
        have h2 : a0 ≤ v := hv2 a0 (List.mem_append_left A1 ha0)
        have heq : a0 = v := le_antisymm h2 h1
        rw [← heq]; exact ha0
    have hvB : v ∈ B := by
      rcases List.mem_append.mp hv1' with h | h
      · exact h
      · obtain ⟨b0, hb0⟩ := List.exists_mem_of_ne_nil B hBne
        have h1 : v ≤ b0 := hcB b0 hb0 v h
        have h2 : b0 ≤ v := hv2' b0 (List.mem_append_left B1 hb0)
        have heq : b0 = v := le_antisymm h2 h1
        rw [← heq]; exact hb0
    have e1 : (A ++ A1).erase v = A.erase v ++ A1 := List.erase_append_left A1 hvA
    have e2 : (B ++ B1).erase v = B.erase v ++ B1 := List.erase_append_left B1 hvB
    have hperm' : List.Perm (A.erase v ++ A1) (B.erase v ++ B1) := by
      have hx := List.Perm.erase v hperm
      rw [e1, e2] at hx
      exact hx
    have hlA : (A.erase v).length = n := by
      rw [List.length_erase_of_mem hvA, hA]
      omega
    have hlen' : (A.erase v).length = (B.erase v).length := by
      rw [List.length_erase_of_mem hvA, List.length_erase_of_mem hvB, hlen]
    have hcA' : ∀ a ∈ A.erase v, ∀ x ∈ A1, x ≤ a :=
      fun a ha x hx => hcA a (List.mem_of_mem_erase ha) x hx
    have hcB' : ∀ b ∈ B.erase v, ∀ y ∈ B1, y ≤ b :=
      fun b hb y hy => hcB b (List.mem_of_mem_erase hb) y hy
    have hAB' := ih (A.erase v) A1 (B.erase v) B1 hlA hperm' hlen' hcA' hcB'
    exact (List.perm_cons_erase hvA).trans
      ((hAB'.cons v).trans (List.perm_cons_erase hvB).symm)

/-- Two sub-multisets of a duplicate-count-free entry list with the same
multiset of counts are the same multiset of entries. -/
theorem subperm_entries_eq (A B M : List Entry)
    (hA : A.Subperm M) (hB : B.Subperm M)
    (hc : List.Perm (A.map Prod.snd) (B.map Prod.snd))
    (hM : (M.map Prod.snd).Nodup) : List.Perm A B := by
  have hMnd : M.Nodup := hM.of_map
  have hAnd : A.Nodup := by
    obtain ⟨l', hl1, hl2⟩ := hA
    exact hl1.nodup_iff.mp (List.Nodup.sublist hl2 hMnd)
  have hBnd : B.Nodup := by
    obtain ⟨l', hl1, hl2⟩ := hB
    exact hl1.nodup_iff.mp (List.Nodup.sublist hl2 hMnd)
  have hmemAB : ∀ x, x ∈ A → x ∈ B := by
    intro x hxA
    have hxv : x.2 ∈ B.map Prod.snd :=
      hc.mem_iff.mp (List.mem_map_of_mem Prod.snd hxA)
    obtain ⟨b, hbB, hbv⟩ := List.mem_map.mp hxv
    have hxM : x ∈ M := hA.subset hxA
    have hbM : b ∈ M := hB.subset hbB
    have hbx : b = x := List.inj_on_of_nodup_map hM hbM hxM hbv
    rw [← hbx]; exact hbB
  have hmemBA : ∀ x, x ∈ B → x ∈ A := by
    intro x hxB
    have hxv : x.2 ∈ A.map Prod.snd :=
      hc.symm.mem_iff.mp (List.mem_map_of_mem Prod.snd hxB)
    obtain ⟨a, haA, hav⟩ := List.mem_map.mp hxv
    have hxM : x ∈ M := hB.subset hxB
    have haM : a ∈ M := hA.subset haA
    have hax : a = x := List.inj_on_of_nodup_map hM haM hxM hav
    rw [← hax]; exact haA
  rw [List.perm_ext_iff_of_nodup hAnd hBnd]
  intro x
  exact ⟨hmemAB x, hmemBA x⟩

/-- Packaged behaviour of `selectTopK` obtained from the scan invariant:
a dropped residue complements the output to the input multiset, the output
has `min N K` entries, every dropped count is `≤` every output count, and
the output is sorted by count descending. -/
theorem selectTopK_spec (entries : List Entry) (K : Nat) :
    ∃ dropped, List.Perm (selectTopK entries K ++ dropped) entries ∧
      (selectTopK entries K).length = min entries.length K ∧
      (∀ a ∈ selectTopK entries K, ∀ x ∈ dropped, x.2 ≤ a.2) ∧
      List.Sorted byCountDesc (selectTopK entries K) := by
  obtain ⟨dropped, hHeap, hPerm, hLen, hLB, hFull⟩ := topKScan_inv K entries
  have hps : List.Perm (selectTopK entries K) (topKScan K entries) :=
    List.perm_insertionSort byCountDesc _
  refine ⟨dropped, ?_, ?_, ?_, List.sorted_insertionSort byCountDesc _⟩
  · exact (hps.append_right dropped).trans hPerm
  · rw [hps.length_eq]; exact hLen
  · intro a ha x hx
    exact hLB a (hps.mem_iff.mp ha) x hx

/-- `specLe` implies count-descending. -/
theorem specLe_counts (a b : Entry) (h : specLe a b) : b.2 ≤ a.2 := by
  rcases h with h | ⟨h, _⟩
  · exact le_of_lt h
  · exact le_of_eq h.symm

/-- The counts of the heap-based `selectTopK` and of the spec's reference
Top-K coincide, as equal descending sequences: both keep exactly the `K`
largest counts. -/
theorem counts_eq_reference (entries : List Entry) (K : Nat) :
    (selectTopK entries K).map Prod.snd = (referenceTopK entries K).map Prod.snd := by
  obtain ⟨dropped, hPerm, hLen, hLB, hSorted⟩ := selectTopK_spec entries K
  set out := selectTopK entries K with houtdef
  set srt := List.insertionSort specLe entries with hsrtdef
  have hsplit : srt.take K ++ srt.drop K = srt := List.take_append_drop K srt
  have hsrtperm : List.Perm srt entries := List.perm_insertionSort specLe entries
  have hsrt_sorted : List.Sorted specLe srt := List.sorted_insertionSort specLe entries
  have hpermM : List.Perm (out.map Prod.snd ++ dropped.map Prod.snd)
      ((srt.take K).map Prod.snd ++ (srt.drop K).map Prod.snd) := by
    rw [← List.map_append, ← List.map_append]
    have h1 : List.Perm (out ++ dropped) (srt.take K ++ srt.drop K) := by
      rw [hsplit]
      exact hPerm.trans hsrtperm.symm
    exact h1.map Prod.snd
  have hlen_eq : (out.map Prod.snd).length = ((srt.take K).map Prod.snd).length := by
    rw [List.length_map, List.length_map, List.length_take, hLen, hsrtperm.length_eq]
    omega
  have hcondA : ∀ a ∈ out.map Prod.snd, ∀ x ∈ dropped.map Prod.snd, x ≤ a := by
    intro a ha x hx
    obtain ⟨ea, hea, hva⟩ := List.mem_map.mp ha
    obtain ⟨ex, hex, hvx⟩ := List.mem_map.mp hx
    rw [← hva, ← hvx]
    exact hLB ea hea ex hex
  have hcondB : ∀ b ∈ (srt.take K).map Prod.snd, ∀ y ∈ (srt.drop K).map Prod.snd,
      y ≤ b := by
    intro b hb y hy
    obtain ⟨eb, heb, hvb⟩ := List.mem_map.mp hb
    obtain ⟨ey, hey, hvy⟩ := List.mem_map.mp hy
    rw [← hvb, ← hvy]
    have hpw : List.Pairwise specLe (srt.take K ++ srt.drop K) := by
      rw [hsplit]
      exact hsrt_sorted
    exact specLe_counts eb ey ((List.pairwise_append.mp hpw).2.2 eb heb ey hey)
  have hcperm : List.Perm (out.map Prod.snd) ((srt.take K).map Prod.snd) :=
    topSelect_unique (out.map Prod.snd).length _ _ _ _ rfl hpermM hlen_eq hcondA hcondB
  have hs1 : List.Pairwise (fun a b : Int => b ≤ a) (out.map Prod.snd) := by
    rw [List.pairwise_map]
    exact hSorted
  have hs2 : List.Pairwise (fun a b : Int => b ≤ a) ((srt.take K).map Prod.snd) := by
    rw [List.pairwise_map]
    exact (List.Pairwise.sublist (List.take_sublist K srt) hsrt_sorted).imp
      (fun hab => specLe_counts _ _ hab)
  haveI : IsAntisymm Int (fun a b : Int => b ≤ a) :=
    ⟨fun a b h1 h2 => le_antisymm h2 h1⟩
  exact List.eq_of_perm_of_sorted hcperm hs1 hs2

theorem nodup_of_subperm {A M : List Int} (h : A.Subperm M) (hnd : M.Nodup) :
    A.Nodup := by
  obtain ⟨l', h1, h2⟩ := h
  exact h1.nodup_iff.mp (List.Nodup.sublist h2 hnd)

/-- C1 — counterexample: on the mapping {b↦1, a↦1, c↦2, d↦2, e↦2} (five
distinct keys, N = K = 5, entry set iterated in this order) the code emits
the equal-count pair as b before a, so the output violates the claimed
"ties broken by key ascending" ordering (`specLe`). -/
theorem C1_counterexample :
    ((([("b",1),("a",1),("c",2),("d",2),("e",2)] : List Entry)).map Prod.fst).Nodup ∧
    5 ≤ ([("b",1),("a",1),("c",2),("d",2),("e",2)] : List Entry).length ∧
    selectTopK [("b",1),("a",1),("c",2),("d",2),("e",2)] 5 =
      [("c",2),("d",2),("e",2),("b",1),("a",1)] ∧
    ¬ List.Pairwise specLe (selectTopK [("b",1),("a",1),("c",2),("d",2),("e",2)] 5) := by
  refine ⟨by decide, by decide, by decide, by decide⟩

/-- C1 (amended): on a mapping with `N ≥ K` distinct keys, `selectTopK`
returns exactly `K` entries, every returned count is `≥` every count not
returned, and the output is sorted by count descending — but the order among
equal counts follows map-iteration and heap order, not the key. -/
theorem C1_selectTopK_topK (entries : List Entry) (K : Nat)
    (hN : K ≤ entries.length) (hkeys : (entries.map Prod.fst).Nodup) :
    (selectTopK entries K).length = K ∧
    (∀ e ∈ entries, e.1 ∉ (selectTopK entries K).map Prod.fst →
      ∀ a ∈ selectTopK entries K, e.2 ≤ a.2) ∧
    List.Sorted byCountDesc (selectTopK entries K) := by
  obtain ⟨dropped, hPerm, hLen, hLB, hSorted⟩ := selectTopK_spec entries K
  refine ⟨by rw [hLen]; omega, ?_, hSorted⟩
  intro e he hnk a ha
  have he' : e ∈ selectTopK entries K ++ dropped := hPerm.mem_iff.mpr he
  rcases List.mem_append.mp he' with h | h
  · exact absurd (List.mem_map_of_mem Prod.fst h) hnk
  · exact hLB a ha e h

/-- C1 — witness for the amended theorem at a concrete 6-key mapping. -/
theorem C1_witness :
    5 ≤ ([("u",5),("v",4),("w",3),("x",2),("y",1),("z",0)] : List Entry).length ∧
    ((([("u",5),("v",4),("w",3),("x",2),("y",1),("z",0)] : List Entry)).map
      Prod.fst).Nodup ∧
    ((selectTopK [("u",5),("v",4),("w",3),("x",2),("y",1),("z",0)] 5).length = 5 ∧
     (∀ e ∈ ([("u",5),("v",4),("w",3),("x",2),("y",1),("z",0)] : List Entry),
        e.1 ∉ (selectTopK [("u",5),("v",4),("w",3),("x",2),("y",1),("z",0)] 5).map
          Prod.fst →
        ∀ a ∈ selectTopK [("u",5),("v",4),("w",3),("x",2),("y",1),("z",0)] 5,
          e.2 ≤ a.2) ∧
     List.Sorted byCountDesc
       (selectTopK [("u",5),("v",4),("w",3),("x",2),("y",1),("z",0)] 5)) :=
  ⟨by decide, by decide,
    C1_selectTopK_topK [("u",5),("v",4),("w",3),("x",2),("y",1),("z",0)] 5
      (by decide) (by decide)⟩

/-- C5 — counterexample: with only the two equal-count keys {y↦1, x↦1}
(N = 2 < K = 5, iterated y first), the code returns them as y before x —
sorted by count but not tie-broken by key ascending. -/
theorem C5_counterexample :
    ((([("y",1),("x",1)] : List Entry)).map Prod.fst).Nodup ∧
    ([("y",1),("x",1)] : List Entry).length < 5 ∧
    selectTopK [("y",1),("x",1)] 5 = [("y",1),("x",1)] ∧
    ¬ List.Pairwise specLe (selectTopK [("y",1),("x",1)] 5) := by
  refine ⟨by decide, by decide, by decide, by decide⟩

/-- C5 (amended): on a mapping with `N < K` distinct keys, `selectTopK`
returns all `N` entries sorted by count descending (tie order following
map-iteration and heap order, not the key), and on the empty mapping it
returns the empty sequence — no error, no null. -/
theorem C5_selectTopK_small (entries : List Entry) (K : Nat)
    (hN : entries.length < K) (hkeys : (entries.map Prod.fst).Nodup) :
    List.Perm (selectTopK entries K) entries ∧
    List.Sorted byCountDesc (selectTopK entries K) ∧
    selectTopK [] K = [] := by
  obtain ⟨dropped, hPerm, hLen, hLB, hSorted⟩ := selectTopK_spec entries K
  have hdlen := hPerm.length_eq
  rw [List.length_append, hLen] at hdlen
  have hdrop : dropped = [] := by
    apply List.length_eq_zero.mp
    omega
  subst hdrop
  refine ⟨by simpa using hPerm, hSorted, rfl⟩

/-- C5 — witness for the amended theorem at a concrete 2-key mapping. -/
theorem C5_witness :
    ([("q",7),("p",9)] : List Entry).length < 5 ∧
    ((([("q",7),("p",9)] : List Entry)).map Prod.fst).Nodup ∧
    (List.Perm (selectTopK [("q",7),("p",9)] 5) [("q",7),("p",9)] ∧
     List.Sorted byCountDesc (selectTopK [("q",7),("p",9)] 5) ∧
     selectTopK [] 5 = []) :=
  ⟨by decide, by decide, C5_selectTopK_small [("q",7),("p",9)] 5 (by decide) (by decide)⟩

/-- C4 — counterexample: on the mapping {n↦1, m↦1, p↦2, q↦2, r↦2} the heap
algorithm emits the equal-count pair as n before m, while the reference
(full sort by count descending, ties key ascending, take K) emits m before
n: the two ordered sequences differ. -/
theorem C4_counterexample :
    ((([("n",1),("m",1),("p",2),("q",2),("r",2)] : List Entry)).map Prod.fst).Nodup ∧
    selectTopK [("n",1),("m",1),("p",2),("q",2),("r",2)] 5 ≠
      referenceTopK [("n",1),("m",1),("p",2),("q",2),("r",2)] 5 := by
  refine ⟨by decide, by decide⟩

/-- C4 (amended): the bounded-min-heap algorithm refines the reference on
counts — for every mapping, the sequence of counts it emits equals the
sequence of counts of the reference (sort all by count descending with the
key-ascending tie-break, take `K`); the key attached to an equal-count slot
may differ. -/
theorem C4_heap_refines_reference (entries : List Entry) (K : Nat)
    (hkeys : (entries.map Prod.fst).Nodup) :
    (selectTopK entries K).map Prod.snd = (referenceTopK entries K).map Prod.snd :=
  counts_eq_reference entries K

/-- C4 — witness for the amended theorem at a concrete mapping with a tie. -/
theorem C4_witness :
    ((([("g",4),("f",4),("h",1)] : List Entry)).map Prod.fst).Nodup ∧
    (selectTopK [("g",4),("f",4),("h",1)] 2).map Prod.snd =
      (referenceTopK [("g",4),("f",4),("h",1)] 2).map Prod.snd :=
  ⟨by decide, C4_heap_refines_reference [("g",4),("f",4),("h",1)] 2 (by decide)⟩

/-- C7 — counterexample: two iteration orders of the same mapping
{a↦1, b↦1} make `selectTopK` return different sequences, so as a function
of the mapping alone it is not deterministic. -/
theorem C7_counterexample :
    List.Perm ([("a",1),("b",1)] : List Entry) [("b",1),("a",1)] ∧
    selectTopK [("a",1),("b",1)] 5 ≠ selectTopK [("b",1),("a",1)] 5 := by
  refine ⟨List.Perm.swap ("b",1) ("a",1) [], by decide⟩

/-- C7 (amended): `selectTopK` is a deterministic function of the entry
list (iteration order included); and when all counts are pairwise distinct
its result is independent of the iteration order — only equal-count ties
depend on it. -/
theorem C7_deterministic_distinct (l1 l2 : List Entry) (K : Nat)
    (hperm : List.Perm l1 l2) (hcnt : (l1.map Prod.snd).Nodup) :
    selectTopK l1 K = selectTopK l2 K := by
  obtain ⟨d1, hPerm1, hLen1, hLB1, hSorted1⟩ := selectTopK_spec l1 K
  obtain ⟨d2, hPerm2, hLen2, hLB2, hSorted2⟩ := selectTopK_spec l2 K
  set o1 := selectTopK l1 K with ho1def
  set o2 := selectTopK l2 K with ho2def
  have hpermM : List.Perm (o1.map Prod.snd ++ d1.map Prod.snd)
      (o2.map Prod.snd ++ d2.map Prod.snd) := by
    rw [← List.map_append, ← List.map_append]
    exact (hPerm1.trans (hperm.trans hPerm2.symm)).map Prod.snd
  have hlen_eq : (o1.map Prod.snd).length = (o2.map Prod.snd).length := by
    rw [List.length_map, List.length_map, hLen1, hLen2, hperm.length_eq]
  have hcondA : ∀ a ∈ o1.map Prod.snd, ∀ x ∈ d1.map Prod.snd, x ≤ a := by
    intro a ha x hx
    obtain ⟨ea, hea, hva⟩ := List.mem_map.mp ha
    obtain ⟨ex, hex, hvx⟩ := List.mem_map.mp hx
    rw [← hva, ← hvx]
    exact hLB1 ea hea ex hex
  have hcondB : ∀ b ∈ o2.map Prod.snd, ∀ y ∈ d2.map Prod.snd, y ≤ b := by
    intro b hb y hy
    obtain ⟨eb, heb, hvb⟩ := List.mem_map.mp hb
    obtain ⟨ey, hey, hvy⟩ := List.mem_map.mp hy
    rw [← hvb, ← hvy]
    exact hLB2 eb heb ey hey
  have hcperm : List.Perm (o1.map Prod.snd) (o2.map Prod.snd) :=
    topSelect_unique (o1.map Prod.snd).length _ _ _ _ rfl hpermM hlen_eq hcondA hcondB
  have ho1sub : o1.Subperm l1 :=
    ((List.sublist_append_left o1 d1).subperm).trans hPerm1.subperm
  have ho2sub : o2.Subperm l1 :=
    ((List.sublist_append_left o2 d2).subperm).trans
      (hPerm2.subperm.trans hperm.symm.subperm)
  have hentry : List.Perm o1 o2 := subperm_entries_eq o1 o2 l1 ho1sub ho2sub hcperm hcnt
  have ho1nd : (o1.map Prod.snd).Nodup := by
    apply nodup_of_subperm _ hcnt
    obtain ⟨l', h1, h2⟩ := ho1sub
    exact ⟨l'.map Prod.snd, h1.map Prod.snd, h2.map Prod.snd⟩
  have ho2nd : (o2.map Prod.snd).Nodup := by
    apply nodup_of_subperm _ hcnt
    obtain ⟨l', h1, h2⟩ := ho2sub
    exact ⟨l'.map Prod.snd, h1.map Prod.snd, h2.map Prod.snd⟩
  have hstrict1 : List.Pairwise (fun a b : Entry => b.2 < a.2) o1 := by
    have hne : List.Pairwise (fun a b : Entry => a.2 ≠ b.2) o1 :=
      List.pairwise_map.mp ho1nd
    exact (List.Pairwise.and hSorted1 hne).imp
      (fun hab => lt_of_le_of_ne hab.1 (Ne.symm hab.2))
  have hstrict2 : List.Pairwise (fun a b : Entry => b.2 < a.2) o2 := by
    have hne : List.Pairwise (fun a b : Entry => a.2 ≠ b.2) o2 :=
      List.pairwise_map.mp ho2nd
    exact (List.Pairwise.and hSorted2 hne).imp
      (fun hab => lt_of_le_of_ne hab.1 (Ne.symm hab.2))
  haveI : IsAntisymm Entry (fun a b : Entry => b.2 < a.2) :=
    ⟨fun a b h1 h2 => absurd (lt_trans h1 h2) (lt_irrefl _)⟩
  exact List.eq_of_perm_of_sorted hentry hstrict1 hstrict2

/-- C7 — witness for the amended theorem: two iteration orders of the same
distinct-count mapping produce the same sequence. -/
theorem C7_witness :
    List.Perm ([("s",3),("t",8),("u",5)] : List Entry) [("u",5),("s",3),("t",8)] ∧
    ((([("s",3),("t",8),("u",5)] : List Entry)).map Prod.snd).Nodup ∧
    selectTopK [("s",3),("t",8),("u",5)] 2 = selectTopK [("u",5),("s",3),("t",8)] 2 := by
  have hp : List.Perm ([("s",3),("t",8),("u",5)] : List Entry)
      [("u",5),("s",3),("t",8)] := by
    simpa using (@List.perm_middle Entry ("u",5) [("s",3),("t",8)] [])
  exact ⟨hp, by decide, C7_deterministic_distinct _ _ 2 hp (by decide)⟩

/-- Modelled from the spec (§4.1): the window assigner hidden inside Flink's
`SlidingProcessingTimeWindows.of(Time.minutes(1), Time.seconds(5))`, which is
not part of this repository — an event at time `t` belongs to every window
instance whose `start ≤ t < start + size` with `start` a multiple of `slide`.
The instances are enumerated from the last aligned start `t - t % slide`
downward, as Flink's `assignWindows` loop does. -/
def assignWindows (size slide t : Int) : List Int :=
  (List.range ((size / slide).toNat)).map
    (fun (i : Nat) => (t - t % slide) - (i : Int) * slide)

theorem assignWindows_length (size slide t : Int) :
    (assignWindows size slide t).length = (size / slide).toNat := by
  simp [assignWindows]

theorem assignWindows_nodup (size slide t : Int) (hs : 0 < slide) :
    (assignWindows size slide t).Nodup := by
  unfold assignWindows
  apply List.Nodup.map
  · intro i j hij
    simp only at hij
    have h2 : (i : Int) * slide = (j : Int) * slide := by omega
    have h3 : (i : Int) = (j : Int) :=
      mul_right_cancel₀ (ne_of_gt hs) h2
    exact_mod_cast h3
  · exact List.nodup_range _

theorem assignWindows_mem (size slide t : Int) (hs : 0 < slide) (hd : slide ∣ size) :
    ∀ s : Int, s ∈ assignWindows size slide t ↔
      (s ≤ t ∧ t < s + size ∧ s % slide = 0) := by
  intro s
  have hm0 : 0 ≤ t % slide := Int.emod_nonneg t (ne_of_gt hs)
  have hm1 : t % slide < slide := Int.emod_lt_of_pos t hs
  have hLeq : t - t % slide = slide * (t / slide) := by
    have hde := Int.ediv_add_emod t slide
    omega
  have hszeq : size / slide * slide = size := Int.ediv_mul_cancel hd
  constructor
  · intro hmem
    obtain ⟨i, hi, hieq⟩ := List.mem_map.mp hmem
    rw [List.mem_range] at hi
    have hipos : (0 : Int) ≤ (i : Int) * slide :=
      mul_nonneg (Int.natCast_nonneg i) (le_of_lt hs)
    refine ⟨?_, ?_, ?_⟩
    · omega
    · -- t < s + size, because (i+1) * slide ≤ size
      have hi1 : ((i : Int) + 1) ≤ size / slide := by
        have : (i : Int) < size / slide := by
          rw [← Int.lt_toNat]
          exact hi
        omega
      have hmul : ((i : Int) + 1) * slide ≤ size :=
        (Int.le_ediv_iff_mul_le hs).mp hi1
      have hexp : ((i : Int) + 1) * slide = (i : Int) * slide + slide := by ring
      omega
    · -- s is a multiple of slide
      have hdvd : slide ∣ s := by
        rw [← hieq, hLeq]
        have h1 : slide ∣ slide * (t / slide) := Dvd.intro _ rfl
        have h2 : slide ∣ (i : Int) * slide := Dvd.intro_left _ rfl
        exact dvd_sub h1 h2
      exact Int.emod_eq_zero_of_dvd hdvd
  · rintro ⟨hs1, hs2, hs3⟩
    have hdvds : slide ∣ s := Int.dvd_of_emod_eq_zero hs3
    obtain ⟨q, hq⟩ := hdvds
    -- s is at most the last aligned start
    have hqle : q ≤ t / slide := by
      rw [Int.le_ediv_iff_mul_le hs]
      rw [mul_comm]
      rw [← hq]
      exact hs1
    have hsL : s ≤ t - t % slide := by
      rw [hLeq, hq]
      exact mul_le_mul_of_nonneg_left hqle (le_of_lt hs)
    have hdvdL : slide ∣ (t - t % slide) - s := by
      rw [hLeq, hq]
      have h1 : slide ∣ slide * (t / slide) := Dvd.intro _ rfl
      have h2 : slide ∣ slide * q := Dvd.intro _ rfl
      exact dvd_sub h1 h2
    obtain ⟨i, hi⟩ := hdvdL
    have hipos : 0 ≤ i := by
      have h1 : (0 : Int) ≤ slide * i := by omega
      by_contra hneg
      push_neg at hneg
      have h2 : slide * i < slide * 0 := mul_lt_mul_of_pos_left hneg hs
      simp at h2
      omega
    have hilt : i < size / slide := by
      have h1 : slide * i < size := by omega
      have h2 : slide * i < slide * (size / slide) := by
        rw [mul_comm slide (size / slide), hszeq]
        exact h1
      exact lt_of_mul_lt_mul_left h2 (le_of_lt hs)
    apply List.mem_map.mpr
    refine ⟨i.toNat, ?_, ?_⟩
    · rw [List.mem_range]
      omega
    · rw [Int.toNat_of_nonneg hipos, mul_comm]
      omega

/-- The per-key window count table: an association list from
`(windowStart, key)` to the running count, the explicit form of the
framework-managed window state the `counts` HashMap of `process` is a
per-window slice of (spec §4.2). -/
abbrev Store := List ((Int × String) × Int)

def lookupCount : Store → (Int × String) → Int
  | [], _ => 0
  | (w', c) :: rest, w => if w' = w then c else lookupCount rest w

/-- §4.2 `increment`, the shape of the loop body
`counts.put(e.f0, counts.getOrDefault(e.f0, 0) + e.f1)`: add the weight to
the running count, creating the entry with count 0 first if absent. -/
def increment : Store → (Int × String) → Int → Store
  | [], w, wt => [(w, 0 + wt)]
  | (w', c) :: rest, w, wt =>
    if w' = w then (w', c + wt) :: rest else (w', c) :: increment rest w wt

/-- An ingestion event: key, timestamp and weight (§3). -/
structure Event where
  key : String
  occurredAt : Int
  weight : Int

/-- Modelled from the spec (§4.5): route an event through the assigner and
increment every assigned window instance. -/
def ingestEvent (size slide : Int) (st : Store) (e : Event) : Store :=
  (assignWindows size slide e.occurredAt).foldl
    (fun acc s => increment acc (s, e.key) e.weight) st

def ingestAll (size slide : Int) (st : Store) (es : List Event) : Store :=
  es.foldl (ingestEvent size slide) st

theorem lookupCount_increment_self (st : Store) (w : Int × String) (wt : Int) :
    lookupCount (increment st w wt) w = lookupCount st w + wt := by
  induction st with
  | nil => simp [increment, lookupCount]
  | cons p rest ih =>
    obtain ⟨w', c⟩ := p
    by_cases h : w' = w
    · simp [increment, lookupCount, h]
    · simp [increment, lookupCount, h, ih]

theorem lookupCount_increment_other (st : Store) (w w2 : Int × String) (wt : Int)
    (hne : w ≠ w2) : lookupCount (increment st w wt) w2 = lookupCount st w2 := by
  induction st with
  | nil => simp [increment, lookupCount, hne]
  | cons p rest ih =>
    obtain ⟨w', c⟩ := p
    by_cases h : w' = w
    · subst h
      simp [increment, lookupCount, hne]
    · simp [increment, lookupCount, h, ih]

theorem increment_absent (st : Store) (w : Int × String) (wt : Int)
    (habs : ∀ p ∈ st, p.1 ≠ w) : increment st w wt = st ++ [(w, 0 + wt)] := by
  induction st with
  | nil => simp [increment]
  | cons p rest ih =>
    obtain ⟨w', c⟩ := p
    have hne : w' ≠ w := habs (w', c) (List.mem_cons_self _ _)
    simp only [increment, hne, if_false, List.cons_append, List.cons.injEq, true_and]
    exact ih (fun q hq => habs q (List.mem_cons_of_mem _ hq))

theorem lookupCount_foldl_incr (ws : List Int) (st : Store) (key : String)
    (wt : Int) (s : Int) (k : String) :
    lookupCount (ws.foldl (fun acc s2 => increment acc (s2, key) wt) st) (s, k) =
      lookupCount st (s, k) +
        (if k = key then wt * (ws.count s) else 0) := by
  induction ws generalizing st with
  | nil => simp
  | cons w ws ih =>
    simp only [List.foldl_cons]
    rw [ih]
    have hcnt : (w :: ws).count s = ws.count s + (if s = w then 1 else 0) := by
      by_cases hsw : s = w
      · subst hsw
        rw [List.count_cons_self]
        simp
      · rw [List.count_cons_of_ne hsw]
        simp [hsw]
    by_cases hk : k = key
    · subst hk
      by_cases hsw : s = w
      · subst hsw
        rw [lookupCount_increment_self st (s, k) wt]
        simp [hcnt]
        ring
      · rw [lookupCount_increment_other st (w, k) (s, k) wt
          (by intro h; exact hsw ((congrArg Prod.fst h).symm))]
        simp [hcnt, hsw]
    · rw [lookupCount_increment_other st (w, key) (s, k) wt
        (by intro h; exact hk ((congrArg Prod.snd h).symm))]
      simp [hk]

theorem lookupCount_ingestEvent (size slide : Int) (hs : 0 < slide)
    (st : Store) (e : Event) (s : Int) (k : String) :
    lookupCount (ingestEvent size slide st e) (s, k) =
      lookupCount st (s, k) +
        (if k = e.key ∧ s ∈ assignWindows size slide e.occurredAt
          then e.weight else 0) := by
  unfold ingestEvent
  rw [lookupCount_foldl_incr]
  congr 1
  by_cases hk : k = e.key
  · by_cases hmem : s ∈ assignWindows size slide e.occurredAt
    · rw [List.count_eq_one_of_mem (assignWindows_nodup _ _ _ hs) hmem]
      simp [hk, hmem]
    · rw [List.count_eq_zero_of_not_mem hmem]
      simp [hk, hmem]
  · simp [hk]

theorem lookupCount_ingestAll (size slide : Int) (hs : 0 < slide)
    (es : List Event) (st : Store) (s : Int) (k : String) :
    lookupCount (ingestAll size slide st es) (s, k) =
      lookupCount st (s, k) +
      (es.map (fun e => if k = e.key ∧ s ∈ assignWindows size slide e.occurredAt
        then e.weight else 0)).sum := by
  induction es generalizing st with
  | nil => simp [ingestAll]
  | cons e es ih =>
    show lookupCount (ingestAll size slide (ingestEvent size slide st e) es) (s, k) = _
    rw [ih (ingestEvent size slide st e), lookupCount_ingestEvent size slide hs st e s k]
    simp only [List.map_cons, List.sum_cons]
    ring

/-- C2: window assignment — for slide-divisible window sizes, an event at
time `t` is assigned to exactly `size/slide` pairwise-distinct window
instances, precisely those with `start ≤ t < start + size` and
`start % slide = 0`, and ingesting the event increments the count of
exactly the assigned `(windowStart, key)` cells. -/
theorem C2_assign_windows (size slide t : Int) (hs : 0 < slide) (hd : slide ∣ size) :
    (assignWindows size slide t).length = (size / slide).toNat ∧
    (assignWindows size slide t).Nodup ∧
    (∀ s : Int, s ∈ assignWindows size slide t ↔
      (s ≤ t ∧ t < s + size ∧ s % slide = 0)) ∧
    (∀ (st : Store) (e : Event) (s : Int) (k : String),
      lookupCount (ingestEvent size slide st e) (s, k) =
        lookupCount st (s, k) +
        (if k = e.key ∧ s ∈ assignWindows size slide e.occurredAt
          then e.weight else 0)) :=
  ⟨assignWindows_length size slide t, assignWindows_nodup size slide t hs,
   assignWindows_mem size slide t hs hd,
   fun st e s k => lookupCount_ingestEvent size slide hs st e s k⟩

/-- C2 — witness at the reference configuration (size 60 s, slide 5 s,
seconds as the unit): exactly 12 instances. -/
theorem C2_witness :
    (0 : Int) < 5 ∧ (5 : Int) ∣ 60 ∧
    ((assignWindows 60 5 137).length = ((60 : Int) / 5).toNat ∧
     (assignWindows 60 5 137).Nodup ∧
     (∀ s : Int, s ∈ assignWindows 60 5 137 ↔
       (s ≤ 137 ∧ (137 : Int) < s + 60 ∧ s % 5 = 0)) ∧
     (∀ (st : Store) (e : Event) (s : Int) (k : String),
       lookupCount (ingestEvent 60 5 st e) (s, k) =
         lookupCount st (s, k) +
         (if k = e.key ∧ s ∈ assignWindows 60 5 e.occurredAt
           then e.weight else 0))) ∧
    (assignWindows 60 5 137).length = 12 :=
  ⟨by decide, ⟨12, rfl⟩, C2_assign_windows 60 5 137 (by decide) ⟨12, rfl⟩, by decide⟩

/-- C3: per-key window state — after ingesting any event sequence into an
empty store, the count stored for `(windowStart, key)` is the sum of the
weights of exactly the events with that key assigned to that window; and
`increment` adds the weight to the running count, creating the entry with
count `0 + weight` if absent. -/
theorem C3_increment_sum (size slide : Int) (hs : 0 < slide) (es : List Event)
    (s : Int) (k : String) (st : Store) (w : Int × String) (wt : Int) :
    lookupCount (ingestAll size slide [] es) (s, k) =
      (es.map (fun e => if k = e.key ∧ s ∈ assignWindows size slide e.occurredAt
        then e.weight else 0)).sum ∧
    lookupCount (increment st w wt) w = lookupCount st w + wt ∧
    ((∀ p ∈ st, p.1 ≠ w) → increment st w wt = st ++ [(w, 0 + wt)]) := by
  refine ⟨?_, lookupCount_increment_self st w wt, increment_absent st w wt⟩
  rw [lookupCount_ingestAll size slide hs es [] s k]
  simp [lookupCount]

/-- C3 — witness: one event `("a", t = 7, weight 1)` in the 60/5
configuration, checked at window 5 and key "a", plus a concrete increment. -/
theorem C3_witness :
    (0 : Int) < 5 ∧
    (lookupCount (ingestAll 60 5 [] [⟨"a", 7, 1⟩]) (5, "a") =
      (([⟨"a", 7, 1⟩] : List Event).map
        (fun e => if "a" = e.key ∧ (5 : Int) ∈ assignWindows 60 5 e.occurredAt
          then e.weight else 0)).sum ∧
     lookupCount (increment [((0, "x"), 3)] ((0, "x")) 2) ((0, "x")) =
       lookupCount [((0, "x"), 3)] ((0, "x")) + 2 ∧
     ((∀ p ∈ ([((0, "x"), 3)] : Store), p.1 ≠ ((0, "x"))) →
       increment [((0, "x"), 3)] ((0, "x")) 2 =
         [((0, "x"), 3)] ++ [(((0, "x")), 0 + 2)])) :=
  ⟨by decide, C3_increment_sum 60 5 (by decide) [⟨"a", 7, 1⟩] 5 "a"
    [((0, "x"), 3)] ((0, "x")) 2⟩

/-- Modelled from the spec (§4.4, §3): the window scheduler state — store,
closed window starts, emitted snapshots, late-event metric.  The scheduler
machinery itself is hidden inside the Flink runtime and not in this
repository. -/
structure SchedState where
  store : Store
  closedW : List Int
  emitted : List (Int × List Entry)
  lateCount : Nat

/-- §4.2 `snapshot`: the key counts of one window instance. -/
def snapshotOf (st : Store) (s : Int) : List Entry :=
  (st.filter (fun p => p.1.1 == s)).map (fun p => (p.1.2, p.2))

/-- §4.2 `evict`: drop all entries of one window instance; idempotent. -/
def evict (st : Store) (s : Int) : Store :=
  st.filter (fun p => p.1.1 != s)

/-- Modelled from the spec (§4.4 step 3, §3 invariant): ingesting an event
increments only still-open windows; an event targeting a closed window is
dropped and counted in the late-event metric — never applied, never an
error. -/
def schedIngest (size slide : Int) (σ : SchedState) (e : Event) : SchedState :=
  (assignWindows size slide e.occurredAt).foldl
    (fun acc s =>
      if s ∈ acc.closedW then { acc with lateCount := acc.lateCount + 1 }
      else { acc with store := increment acc.store (s, e.key) e.weight }) σ

/-- Modelled from the spec (§4.4 step 2): closing a window — snapshot, run
the Top-K selector, emit, evict, mark closed; closing is terminal. -/
def schedClose (K : Nat) (σ : SchedState) (s : Int) : SchedState :=
  if s ∈ σ.closedW then σ
  else { store := evict σ.store s,
         closedW := s :: σ.closedW,
         emitted := (s, selectTopK (snapshotOf σ.store s) K) :: σ.emitted,
         lateCount := σ.lateCount }

inductive SchedOp where
  | ingest (e : Event)
  | close (s : Int)

def schedStep (size slide : Int) (K : Nat) (σ : SchedState) : SchedOp → SchedState
  | SchedOp.ingest e => schedIngest size slide σ e
  | SchedOp.close s => schedClose K σ s

def schedRun (size slide : Int) (K : Nat) (σ : SchedState)
    (ops : List SchedOp) : SchedState :=
  ops.foldl (schedStep size slide K) σ

/-- The snapshot already emitted for window start `s`, if any. -/
def emittedFor (σ : SchedState) (s : Int) : Option (List Entry) :=
  (σ.emitted.find? (fun p => p.1 == s)).map (fun p => p.2)

theorem schedIngest_emitted (size slide : Int) (σ : SchedState) (e : Event) :
    (schedIngest size slide σ e).emitted = σ.emitted ∧
    (schedIngest size slide σ e).closedW = σ.closedW := by
  unfold schedIngest
  generalize assignWindows size slide e.occurredAt = ws
  induction ws generalizing σ with
  | nil => exact ⟨rfl, rfl⟩
  | cons w ws ih =>
    simp only [List.foldl_cons]
    by_cases h : w ∈ σ.closedW
    · simp only [h, if_true]
      exact ih _
    · simp only [h, if_false]
      exact ih _

theorem schedStep_closed_mono (size slide : Int) (K : Nat) (σ : SchedState)
    (op : SchedOp) (s : Int) (hc : s ∈ σ.closedW) :
    s ∈ (schedStep size slide K σ op).closedW ∧
    emittedFor (schedStep size slide K σ op) s = emittedFor σ s := by
  cases op with
  | ingest e =>
    obtain ⟨he, hcl⟩ := schedIngest_emitted size slide σ e
    constructor
    · show s ∈ (schedIngest size slide σ e).closedW
      rw [hcl]
      exact hc
    · show emittedFor (schedIngest size slide σ e) s = emittedFor σ s
      unfold emittedFor
      rw [he]
  | close s2 =>
    show s ∈ (schedClose K σ s2).closedW ∧ emittedFor (schedClose K σ s2) s = _
    unfold schedClose
    by_cases h2 : s2 ∈ σ.closedW
    · simp only [h2, if_true]
      exact ⟨hc, trivial⟩
    · simp only [h2, if_false]
      have hne : s2 ≠ s := fun hcon => h2 (hcon ▸ hc)
      constructor
      · exact List.mem_cons_of_mem _ hc
      · unfold emittedFor
        simp only []
        have hbeq : (s2 == s) = false := beq_eq_false_iff_ne.mpr hne
        rw [List.find?_cons_of_neg]
        simp [hbeq]

theorem schedRun_closed_stable (size slide : Int) (K : Nat) (ops : List SchedOp)
    (σ : SchedState) (s : Int) (hc : s ∈ σ.closedW) :
    s ∈ (schedRun size slide K σ ops).closedW ∧
    emittedFor (schedRun size slide K σ ops) s = emittedFor σ s := by
  induction ops generalizing σ with
  | nil => exact ⟨hc, rfl⟩
  | cons op ops ih =>
    obtain ⟨h1, h2⟩ := schedStep_closed_mono size slide K σ op s hc
    obtain ⟨h3, h4⟩ := ih (schedStep size slide K σ op) h1
    exact ⟨h3, h4.trans h2⟩

theorem schedIngest_late (size slide : Int) (σ : SchedState) (e : Event)
    (hall : ∀ w ∈ assignWindows size slide e.occurredAt, w ∈ σ.closedW) :
    (schedIngest size slide σ e).store = σ.store ∧
    (schedIngest size slide σ e).lateCount =
      σ.lateCount + (assignWindows size slide e.occurredAt).length := by
  unfold schedIngest
  generalize hws : assignWindows size slide e.occurredAt = ws
  rw [hws] at hall
  clear hws
  induction ws generalizing σ with
  | nil => exact ⟨rfl, rfl⟩
  | cons w ws ih =>
    have hw : w ∈ σ.closedW := hall w (List.mem_cons_self _ _)
    simp only [List.foldl_cons, hw, if_true]
    have hall' : ∀ w2 ∈ ws,
        w2 ∈ ({ σ with lateCount := σ.lateCount + 1 } : SchedState).closedW :=
      fun w2 h => hall w2 (List.mem_cons_of_mem _ h)
    obtain ⟨h1, h2⟩ := ih _ hall'
    refine ⟨h1, ?_⟩
    rw [h2]
    simp only [List.length_cons]
    omega

/-- C6: once a window instance is closed (snapshot emitted, state evicted,
start recorded as closed), no later operation changes its emitted snapshot
or reopens it; an event all of whose windows are closed leaves the store
untouched and only bumps the late-event metric by the number of its window
instances — it is never applied and never an error. -/
theorem C6_closed_window_immutable (size slide : Int) (K : Nat) (σ : SchedState)
    (s : Int) (ops : List SchedOp) (hc : s ∈ σ.closedW) :
    emittedFor (schedRun size slide K σ ops) s = emittedFor σ s ∧
    s ∈ (schedRun size slide K σ ops).closedW ∧
    (∀ e : Event, (∀ w ∈ assignWindows size slide e.occurredAt, w ∈ σ.closedW) →
      (schedIngest size slide σ e).store = σ.store ∧
      (schedIngest size slide σ e).lateCount =
        σ.lateCount + (assignWindows size slide e.occurredAt).length) := by
  obtain ⟨h1, h2⟩ := schedRun_closed_stable size slide K ops σ s hc
  exact ⟨h2, h1, fun e hall => schedIngest_late size slide σ e hall⟩

/-- C6 — witness: window 5 is closed with snapshot `[("a",3)]`; a later
event and a duplicate close leave its snapshot and closed status intact. -/
theorem C6_witness :
    (5 : Int) ∈ (SchedState.mk [] [5] [(5, [("a", 3)])] 0).closedW ∧
    (emittedFor (schedRun 60 5 5 (SchedState.mk [] [5] [(5, [("a", 3)])] 0)
        [SchedOp.ingest ⟨"a", 9, 1⟩, SchedOp.close 5]) 5 =
      emittedFor (SchedState.mk [] [5] [(5, [("a", 3)])] 0) 5 ∧
     (5 : Int) ∈ (schedRun 60 5 5 (SchedState.mk [] [5] [(5, [("a", 3)])] 0)
        [SchedOp.ingest ⟨"a", 9, 1⟩, SchedOp.close 5]).closedW ∧
     (∀ e : Event, (∀ w ∈ assignWindows 60 5 e.occurredAt,
        w ∈ (SchedState.mk [] [5] [(5, [("a", 3)])] 0).closedW) →
       (schedIngest 60 5 (SchedState.mk [] [5] [(5, [("a", 3)])] 0) e).store =
         (SchedState.mk [] [5] [(5, [("a", 3)])] 0).store ∧
       (schedIngest 60 5 (SchedState.mk [] [5] [(5, [("a", 3)])] 0) e).lateCount =
         (SchedState.mk [] [5] [(5, [("a", 3)])] 0).lateCount +
           (assignWindows 60 5 e.occurredAt).length)) :=
  ⟨by decide, C6_closed_window_immutable 60 5 5 (SchedState.mk [] [5] [(5, [("a", 3)])] 0)
    5 [SchedOp.ingest ⟨"a", 9, 1⟩, SchedOp.close 5] (by decide)⟩

/-- The alphabet of `generateShortUrl`. -/
def urlChars : List Char :=
  "ABCDEFGHIJKLMNOPQRSTUVWXYZabcdefghijklmnopqrstuvwxyz0123456789".toList

/-- `generateShortUrl`: six characters drawn from the alphabet at indices
`Math.floor(Math.random() * chars.length)`; the random draws are modelled by
an oracle stream `r` read at positions `pos, pos+1, …`, reduced mod 62 (the
alphabet length) as the JS expression keeps the index in range. -/
def generateShortUrl (r : Nat → Nat) (pos : Nat) : String :=
  String.mk ((List.range 6).map (fun i => urlChars.getD (r (pos + i) % 62) 'A'))

/-- The do/while retry loop of the POST handler: generate a candidate,
regenerate while `urlMap.has` it.  The source loop is unbounded; `fuel`
bounds the modelled iterations, with `none` standing for a run that has not
terminated within the given fuel. -/
def genUnique (m : List (String × String)) (r : Nat → Nat) :
    Nat → Nat → Option String
  | _, 0 => none
  | pos, fuel+1 =>
    if (m.lookup (generateShortUrl r pos)).isSome then genUnique m r (pos + 6) fuel
    else some (generateShortUrl r pos)

inductive ShortenRes where
  | ok (shortUrl longUrl : String)
  | badRequest
deriving DecidableEq

/-- `POST /api/urls/shorten`: a falsy `longUrl` (absent or empty) returns
400 and leaves the map unchanged; otherwise a fresh short URL is generated,
stored with `urlMap.set`, and echoed. -/
def postShorten (m : List (String × String)) (body : Option String)
    (r : Nat → Nat) (fuel : Nat) :
    Option (ShortenRes × List (String × String)) :=
  match body with
  | none => some (ShortenRes.badRequest, m)
  | some u =>
    if u = "" then some (ShortenRes.badRequest, m)
    else (genUnique m r 0 fuel).map (fun s2 => (ShortenRes.ok s2 u, (s2, u) :: m))

inductive GetRes where
  | redirect (longUrl : String)
  | notFound
deriving DecidableEq

/-- `GET /api/urls/:shortUrl`: redirect if stored, else 404. -/
def getShort (m : List (String × String)) (s : String) : GetRes :=
  match m.lookup s with
  | some l => GetRes.redirect l
  | none => GetRes.notFound

theorem generateShortUrl_len (r : Nat → Nat) (pos : Nat) :
    (generateShortUrl r pos).length = 6 := rfl

theorem generateShortUrl_chars (r : Nat → Nat) (pos : Nat) :
    ∀ c ∈ (generateShortUrl r pos).toList, c ∈ urlChars := by
  intro c hc
  have hc2 : c ∈ (List.range 6).map (fun i => urlChars.getD (r (pos + i) % 62) 'A') := hc
  obtain ⟨i, _, hceq⟩ := List.mem_map.mp hc2
  rw [← hceq]
  have hlen : urlChars.length = 62 := by decide
  have hlt : r (pos + i) % 62 < urlChars.length := by
    rw [hlen]
    exact Nat.mod_lt _ (by omega)
  have hgd : urlChars.getD (r (pos + i) % 62) 'A' = urlChars[r (pos + i) % 62] := by
    rw [List.getD_eq_getElem?_getD, List.getElem?_eq_getElem hlt]
    rfl
  rw [hgd]
  exact List.getElem_mem hlt

theorem genUnique_spec : ∀ (fuel pos : Nat) (m : List (String × String))
    (r : Nat → Nat) (s2 : String), genUnique m r pos fuel = some s2 →
    m.lookup s2 = none ∧ ∃ p, s2 = generateShortUrl r p := by
  intro fuel
  induction fuel with
  | zero =>
    intro pos m r s2 h
    simp [genUnique] at h
  | succ n ih =>
    intro pos m r s2 h
    by_cases hl : (m.lookup (generateShortUrl r pos)).isSome
    · have hh : genUnique m r pos (n+1) = genUnique m r (pos + 6) n := by
        show (if (m.lookup (generateShortUrl r pos)).isSome then genUnique m r (pos + 6) n
          else some (generateShortUrl r pos)) = _
        simp [hl]
      rw [hh] at h
      exact ih (pos + 6) m r s2 h
    · have hh : genUnique m r pos (n+1) = some (generateShortUrl r pos) := by
        show (if (m.lookup (generateShortUrl r pos)).isSome then genUnique m r (pos + 6) n
          else some (generateShortUrl r pos)) = _
        simp [hl]
      rw [hh] at h
      injection h with h2
      subst h2
      refine ⟨?_, pos, rfl⟩
      exact Option.not_isSome_iff_eq_none.mp hl

/-- C8: whenever `POST /api/urls/shorten` answers OK, the returned short URL
is a six-character string over `[A-Za-z0-9]` that was not previously a key
of `urlMap`, the response echoes the submitted long URL, afterwards the map
sends the short URL to it (so a subsequent GET redirects there); a request
with a missing or empty `longUrl` returns 400 and leaves the map
unchanged. -/
theorem C8_shorten_contract (m : List (String × String)) (u u' s2 : String)
    (m' : List (String × String)) (r : Nat → Nat) (fuel : Nat)
    (hok : postShorten m (some u) r fuel = some (ShortenRes.ok s2 u', m')) :
    u' = u ∧ u ≠ "" ∧
    s2.length = 6 ∧ (∀ c ∈ s2.toList, c ∈ urlChars) ∧
    m.lookup s2 = none ∧
    m' = (s2, u) :: m ∧
    m'.lookup s2 = some u ∧
    getShort m' s2 = GetRes.redirect u ∧
    postShorten m none r fuel = some (ShortenRes.badRequest, m) ∧
    postShorten m (some "") r fuel = some (ShortenRes.badRequest, m) := by
  unfold postShorten at hok
  by_cases hu : u = ""
  · rw [hu] at hok
    simp at hok
  · simp only [hu, if_false] at hok
    cases hgen : genUnique m r 0 fuel with
    | none =>
      rw [hgen] at hok
      simp at hok
    | some s3 =>
      rw [hgen] at hok
      simp only [Option.map_some', Option.some_inj] at hok
      injection hok with hA hB
      injection hA with hs3 hu'
      subst hs3
      subst hu'
      subst hB
      obtain ⟨hfresh, p, hform⟩ := genUnique_spec fuel 0 m r s3 hgen
      have hlook : ((s3, u) :: m).lookup s3 = some u := by
        simp [List.lookup]
      refine ⟨rfl, hu, ?_, ?_, hfresh, rfl, hlook, ?_, rfl, by simp [postShorten]⟩
      · rw [hform]; exact generateShortUrl_len r p
      · rw [hform]; exact generateShortUrl_chars r p
      · unfold getShort
        rw [hlook]

/-- C8 — witness: on the empty map with the all-zero oracle and fuel 1, the
handler stores and returns "AAAAAA" for long URL "x". -/
theorem C8_witness :
    postShorten [] (some "x") (fun _ => 0) 1 =
      some (ShortenRes.ok "AAAAAA" "x", [("AAAAAA", "x")]) ∧
    ("x" = "x" ∧ "x" ≠ "" ∧
     ("AAAAAA" : String).length = 6 ∧ (∀ c ∈ ("AAAAAA" : String).toList, c ∈ urlChars) ∧
     ([] : List (String × String)).lookup "AAAAAA" = none ∧
     [("AAAAAA", "x")] = ([("AAAAAA", "x")] : List (String × String)) ∧
     ([("AAAAAA", "x")] : List (String × String)).lookup "AAAAAA" = some "x" ∧
     getShort [("AAAAAA", "x")] "AAAAAA" = GetRes.redirect "x" ∧
     postShorten [] none (fun _ => 0) 1 = some (ShortenRes.badRequest, []) ∧
     postShorten [] (some "") (fun _ => 0) 1 = some (ShortenRes.badRequest, [])) :=
  ⟨by decide, by
    have h := C8_shorten_contract [] "x" "x" "AAAAAA" [("AAAAAA", "x")]
      (fun _ => 0) 1 (by decide)
    exact ⟨rfl, h.2.1, h.2.2.1, h.2.2.2.1, h.2.2.2.2.1, h.2.2.2.2.2.1,
      h.2.2.2.2.2.2.1, h.2.2.2.2.2.2.2.1, h.2.2.2.2.2.2.2.2.1,
      h.2.2.2.2.2.2.2.2.2⟩⟩

/-- The relay's server state (`google-docs/websocket.js`): the room captured
by each live connection's handlers (the `roomId` closure variable), the
`rooms` map in insertion order, and the sockets whose `readyState` is
`OPEN`. -/
structure WSState where
  conns : List (Nat × String)
  rooms : List (String × List Nat)
  openS : List Nat

/-- `rooms.get(roomId)` as used for broadcasting: the members of a room,
empty if the room is absent. -/
def roomMembers (rooms : List (String × List Nat)) (rid : String) : List Nat :=
  match rooms.lookup rid with
  | some ms => ms
  | none => []

/-- `if (!rooms.has(roomId)) rooms.set(roomId, new Set());`
`rooms.get(roomId).add(socket)` — a JS `Map` keeps insertion order and
`Set.add` is a no-op on an existing member. -/
def addToRoom : List (String × List Nat) → String → Nat → List (String × List Nat)
  | [], rid, sid => [(rid, [sid])]
  | (r2, ms) :: rest, rid, sid =>
    if r2 = rid then (r2, if sid ∈ ms then ms else ms ++ [sid]) :: rest
    else (r2, ms) :: addToRoom rest rid sid

/-- `rooms.get(roomId).delete(socket); if (….size === 0) rooms.delete(roomId)`.
An absent room (unreachable in runs from the empty state) leaves the map
unchanged. -/
def removeFromRoom : List (String × List Nat) → String → Nat → List (String × List Nat)
  | [], _, _ => []
  | (r2, ms) :: rest, rid, sid =>
    if r2 = rid then
      (if ms.erase sid = [] then rest else (r2, ms.erase sid) :: rest)
    else (r2, ms) :: removeFromRoom rest rid sid

/-- The `connection` handler: capture the room id (`?room=` query param,
default "lobby"), create the room's set before inserting the socket; the
fresh socket is OPEN.  A socket id that is already connected is ignored —
every real connection is a new socket object. -/
def wsConnect (σ : WSState) (sid : Nat) (room : Option String) : WSState :=
  if (σ.conns.lookup sid).isSome then σ
  else
    { conns := (sid, room.getD "lobby") :: σ.conns,
      rooms := addToRoom σ.rooms (room.getD "lobby") sid,
      openS := sid :: σ.openS }

/-- The `close` handler: remove the socket from its captured room, delete
the room when its set empties, and forget the connection. -/
def wsClose (σ : WSState) (sid : Nat) : WSState :=
  match σ.conns.lookup sid with
  | none => σ
  | some rid =>
    { conns := σ.conns.filter (fun p => p.1 != sid),
      rooms := removeFromRoom σ.rooms rid sid,
      openS := σ.openS.erase sid }

/-- The `message` handler's recipient set: every socket of the sender's
captured room that is not the sender and whose `readyState` is `OPEN` —
exactly the sockets `client.send(data)` runs for. -/
def wsRecipients (σ : WSState) (sender : Nat) : List Nat :=
  match σ.conns.lookup sender with
  | none => []
  | some rid =>
    (roomMembers σ.rooms rid).filter (fun c => c != sender && σ.openS.contains c)

inductive WSOp where
  | connect (sid : Nat) (room : Option String)
  | message (sid : Nat)
  | close (sid : Nat)
  | unready (sid : Nat)

/-- One server event.  `message` does not change the state; `unready`
models a socket leaving the `OPEN` ready state before its close event. -/
def wsStep (σ : WSState) : WSOp → WSState
  | WSOp.connect sid room => wsConnect σ sid room
  | WSOp.message _ => σ
  | WSOp.close sid => wsClose σ sid
  | WSOp.unready sid => { σ with openS := σ.openS.erase sid }

def wsInit : WSState := ⟨[], [], []⟩

def wsReach (ops : List WSOp) : WSState := ops.foldl wsStep wsInit

theorem lookup_cons_self {α β : Type} [BEq α] [LawfulBEq α] (k : α) (v : β)
    (l : List (α × β)) : ((k, v) :: l).lookup k = some v := by
  simp [List.lookup]

theorem lookup_cons_ne {α β : Type} [BEq α] [LawfulBEq α] (k k2 : α) (v : β)
    (l : List (α × β)) (h : k2 ≠ k) : ((k, v) :: l).lookup k2 = l.lookup k2 := by
  simp [List.lookup, beq_eq_false_iff_ne.mpr h]

theorem lookup_filter_ne (conns : List (Nat × String)) (sid c : Nat) (hne : c ≠ sid) :
    (conns.filter (fun p => p.1 != sid)).lookup c = conns.lookup c := by
  induction conns with
  | nil => rfl
  | cons p rest ih =>
    obtain ⟨k, v⟩ := p
    by_cases hk : k = sid
    · simp only [List.filter_cons, hk, bne_self_eq_false, Bool.false_eq_true, if_false]
      rw [lookup_cons_ne sid c v rest hne]
      exact ih
    · simp only [List.filter_cons]
      have hb : ((k, v).1 != sid) = true := by simp [hk]
      rw [if_pos hb]
      by_cases hck : c = k
      · rw [hck, lookup_cons_self, lookup_cons_self]
      · rw [lookup_cons_ne k c v _ hck, lookup_cons_ne k c v rest hck]
        exact ih

theorem roomMembers_cons_self (r : String) (ms : List Nat)
    (rest : List (String × List Nat)) : roomMembers ((r, ms) :: rest) r = ms := by
  simp [roomMembers, lookup_cons_self]

theorem roomMembers_cons_ne (r2 r : String) (ms : List Nat)
    (rest : List (String × List Nat)) (h : r ≠ r2) :
    roomMembers ((r2, ms) :: rest) r = roomMembers rest r := by
  simp [roomMembers, lookup_cons_ne r2 r ms rest h]

theorem roomMembers_nil (r : String) : roomMembers [] r = [] := rfl

theorem roomMembers_addToRoom (rooms : List (String × List Nat)) (rid : String)
    (sid : Nat) (r : String) :
    roomMembers (addToRoom rooms rid sid) r =
      if r = rid then
        (if sid ∈ roomMembers rooms rid then roomMembers rooms rid
         else roomMembers rooms rid ++ [sid])
      else roomMembers rooms r := by
  induction rooms with
  | nil =>
    by_cases h : r = rid
    · rw [show addToRoom [] rid sid = [(rid, [sid])] from rfl, h,
        roomMembers_cons_self, if_pos rfl, roomMembers_nil]
      simp
    · rw [show addToRoom [] rid sid = [(rid, [sid])] from rfl,
        roomMembers_cons_ne rid r [sid] [] h, if_neg h]
  | cons p rest ih =>
    obtain ⟨r2, ms⟩ := p
    by_cases h2 : r2 = rid
    · rw [show addToRoom ((r2, ms) :: rest) rid sid =
          (r2, if sid ∈ ms then ms else ms ++ [sid]) :: rest from by
        simp [addToRoom, h2]]
      by_cases hr : r = r2
      · simp [hr, h2, roomMembers_cons_self]
      · have hrne : r ≠ rid := fun hcon => hr (hcon.trans h2.symm)
        rw [roomMembers_cons_ne r2 r _ rest hr, if_neg hrne,
          roomMembers_cons_ne r2 r ms rest hr]
    · rw [show addToRoom ((r2, ms) :: rest) rid sid =
          (r2, ms) :: addToRoom rest rid sid from by
        simp [addToRoom, h2]]
      have hRid : roomMembers ((r2, ms) :: rest) rid = roomMembers rest rid :=
        roomMembers_cons_ne r2 rid ms rest (fun hcon => h2 hcon.symm)
      by_cases hr : r = r2
      · have hrne : r ≠ rid := fun hcon => h2 (hr.symm.trans hcon)
        rw [hr, roomMembers_cons_self, if_neg (fun hcon : r2 = rid => h2 hcon),
          roomMembers_cons_self]
      · rw [roomMembers_cons_ne r2 r _ _ hr, roomMembers_cons_ne r2 r ms rest hr,
          hRid, ih]

theorem roomMembers_eq_nil_of_not_mem_keys (rooms : List (String × List Nat))
    (r : String) (h : r ∉ rooms.map Prod.fst) : roomMembers rooms r = [] := by
  induction rooms with
  | nil => rfl
  | cons p rest ih =>
    obtain ⟨r2, ms⟩ := p
    simp only [List.map_cons, List.mem_cons, not_or] at h
    rw [roomMembers_cons_ne r2 r ms rest h.1]
    exact ih h.2

theorem roomMembers_removeFromRoom (rooms : List (String × List Nat)) (rid : String)
    (sid : Nat) (r : String) (hnd : (rooms.map Prod.fst).Nodup) :
    roomMembers (removeFromRoom rooms rid sid) r =
      if r = rid then (roomMembers rooms rid).erase sid
      else roomMembers rooms r := by
  induction rooms with
  | nil =>
    show roomMembers [] r = _
    by_cases h : r = rid <;> simp [roomMembers_nil, h]
  | cons p rest ih =>
    obtain ⟨r2, ms⟩ := p
    simp only [List.map_cons] at hnd
    obtain ⟨hr2notin, hndr⟩ := List.nodup_cons.mp hnd
    by_cases h2 : r2 = rid
    · rw [show removeFromRoom ((r2, ms) :: rest) rid sid =
          (if ms.erase sid = [] then rest else (r2, ms.erase sid) :: rest) from by
        simp [removeFromRoom, h2]]
      by_cases hr : r = r2
      · have hmem : roomMembers ((r2, ms) :: rest) rid = ms := by
          rw [← h2]
          exact roomMembers_cons_self r2 ms rest
        have hrid : r = rid := hr.trans h2
        rw [if_pos hrid, hmem]
        by_cases he : ms.erase sid = []
        · rw [if_pos he, he]
          apply roomMembers_eq_nil_of_not_mem_keys
          rw [hr]
          exact hr2notin
        · rw [if_neg he, hr, roomMembers_cons_self]
      · have hrne : r ≠ rid := fun hcon => hr (hcon.trans h2.symm)
        rw [if_neg hrne]
        by_cases he : ms.erase sid = []
        · rw [if_pos he, roomMembers_cons_ne r2 r ms rest hr]
        · rw [if_neg he, roomMembers_cons_ne r2 r _ rest hr,
            roomMembers_cons_ne r2 r ms rest hr]
    · rw [show removeFromRoom ((r2, ms) :: rest) rid sid =
          (r2, ms) :: removeFromRoom rest rid sid from by
        simp [removeFromRoom, h2]]
      have hRid : roomMembers ((r2, ms) :: rest) rid = roomMembers rest rid :=
        roomMembers_cons_ne r2 rid ms rest (fun hc => h2 hc.symm)
      by_cases hr : r = r2
      · have hrne : r ≠ rid := fun hcon => h2 (hr.symm.trans hcon)
        rw [if_neg hrne, hr, roomMembers_cons_self, roomMembers_cons_self]
      · rw [roomMembers_cons_ne r2 r _ _ hr, roomMembers_cons_ne r2 r ms rest hr,
          hRid, ih hndr]

theorem addToRoom_mem_cases : ∀ (rooms : List (String × List Nat)) (rid : String)
    (sid : Nat) (p : String × List Nat), p ∈ addToRoom rooms rid sid →
    p ∈ rooms ∨ p = (rid, [sid]) ∨
    ∃ ms, (rid, ms) ∈ rooms ∧ p = (rid, if sid ∈ ms then ms else ms ++ [sid]) := by
  intro rooms rid sid
  induction rooms with
  | nil =>
    intro p hp
    simp only [addToRoom, List.mem_singleton] at hp
    right; left
    exact hp
  | cons q rest ih =>
    obtain ⟨r2, ms⟩ := q
    intro p hp
    by_cases h2 : r2 = rid
    · rw [show addToRoom ((r2, ms) :: rest) rid sid =
          (r2, if sid ∈ ms then ms else ms ++ [sid]) :: rest from by
        simp [addToRoom, h2]] at hp
      rcases List.mem_cons.mp hp with hh | ht
      · right; right
        refine ⟨ms, ?_, ?_⟩
        · rw [← h2]
          exact List.mem_cons_self _ _
        · rw [hh, h2]
      · left
        exact List.mem_cons_of_mem _ ht
    · rw [show addToRoom ((r2, ms) :: rest) rid sid =
          (r2, ms) :: addToRoom rest rid sid from by
        simp [addToRoom, h2]] at hp
      rcases List.mem_cons.mp hp with hh | ht
      · left
        rw [hh]
        exact List.mem_cons_self _ _
      · rcases ih p ht with h | h | ⟨ms2, hm, hp2⟩
        · left; exact List.mem_cons_of_mem _ h
        · right; left; exact h
        · right; right; exact ⟨ms2, List.mem_cons_of_mem _ hm, hp2⟩

theorem removeFromRoom_mem_cases : ∀ (rooms : List (String × List Nat)) (rid : String)
    (sid : Nat) (p : String × List Nat), p ∈ removeFromRoom rooms rid sid →
    p ∈ rooms ∨
    ∃ ms, (rid, ms) ∈ rooms ∧ p = (rid, ms.erase sid) ∧ ms.erase sid ≠ [] := by
  intro rooms rid sid
  induction rooms with
  | nil =>
    intro p hp
    simp [removeFromRoom] at hp
  | cons q rest ih =>
    obtain ⟨r2, ms⟩ := q
    intro p hp
    by_cases h2 : r2 = rid
    · rw [show removeFromRoom ((r2, ms) :: rest) rid sid =
          (if ms.erase sid = [] then rest else (r2, ms.erase sid) :: rest) from by
        simp [removeFromRoom, h2]] at hp
      by_cases he : ms.erase sid = []
      · rw [if_pos he] at hp
        left
        exact List.mem_cons_of_mem _ hp
      · rw [if_neg he] at hp
        rcases List.mem_cons.mp hp with hh | ht
        · right
          refine ⟨ms, ?_, ?_, he⟩
          · rw [← h2]; exact List.mem_cons_self _ _
          · rw [hh, h2]
        · left
          exact List.mem_cons_of_mem _ ht
    · rw [show removeFromRoom ((r2, ms) :: rest) rid sid =
          (r2, ms) :: removeFromRoom rest rid sid from by
        simp [removeFromRoom, h2]] at hp
      rcases List.mem_cons.mp hp with hh | ht
      · left
        rw [hh]
        exact List.mem_cons_self _ _
      · rcases ih p ht with h | ⟨ms2, hm, hp2, hne⟩
        · left; exact List.mem_cons_of_mem _ h
        · right; exact ⟨ms2, List.mem_cons_of_mem _ hm, hp2, hne⟩

theorem addToRoom_keys_sub : ∀ (rooms : List (String × List Nat)) (rid : String)
    (sid : Nat) (x : String), x ∈ (addToRoom rooms rid sid).map Prod.fst →
    x ∈ rooms.map Prod.fst ∨ x = rid := by
  intro rooms rid sid
  induction rooms with
  | nil =>
    intro x hx
    simp [addToRoom] at hx
    right; exact hx
  | cons q rest ih =>
    obtain ⟨r2, ms⟩ := q
    intro x hx
    by_cases h2 : r2 = rid
    · rw [show addToRoom ((r2, ms) :: rest) rid sid =
          (r2, if sid ∈ ms then ms else ms ++ [sid]) :: rest from by
        simp [addToRoom, h2]] at hx
      simp only [List.map_cons, List.mem_cons] at hx ⊢
      rcases hx with h | h
      · left; left; exact h
      · left; right; exact h
    · rw [show addToRoom ((r2, ms) :: rest) rid sid =
          (r2, ms) :: addToRoom rest rid sid from by
        simp [addToRoom, h2]] at hx
      simp only [List.map_cons, List.mem_cons] at hx ⊢
      rcases hx with h | h
      · left; left; exact h
      · rcases ih x h with h3 | h3
        · left; right; exact h3
        · right; exact h3

theorem addToRoom_keys_nodup : ∀ (rooms : List (String × List Nat)) (rid : String)
    (sid : Nat), (rooms.map Prod.fst).Nodup →
    ((addToRoom rooms rid sid).map Prod.fst).Nodup := by
  intro rooms rid sid
  induction rooms with
  | nil =>
    intro _
    simp [addToRoom]
  | cons q rest ih =>
    obtain ⟨r2, ms⟩ := q
    intro hnd
    simp only [List.map_cons] at hnd
    obtain ⟨hnotin, hndr⟩ := List.nodup_cons.mp hnd
    by_cases h2 : r2 = rid
    · rw [show addToRoom ((r2, ms) :: rest) rid sid =
          (r2, if sid ∈ ms then ms else ms ++ [sid]) :: rest from by
        simp [addToRoom, h2]]
      simp only [List.map_cons]
      exact List.nodup_cons.mpr ⟨hnotin, hndr⟩
    · rw [show addToRoom ((r2, ms) :: rest) rid sid =
          (r2, ms) :: addToRoom rest rid sid from by
        simp [addToRoom, h2]]
      simp only [List.map_cons]
      apply List.nodup_cons.mpr
      refine ⟨?_, ih hndr⟩
      intro hcon
      rcases addToRoom_keys_sub rest rid sid r2 hcon with h | h
      · exact hnotin h
      · exact h2 h

theorem removeFromRoom_keys_sublist : ∀ (rooms : List (String × List Nat))
    (rid : String) (sid : Nat),
    ((removeFromRoom rooms rid sid).map Prod.fst).Sublist (rooms.map Prod.fst) := by
  intro rooms rid sid
  induction rooms with
  | nil => exact List.Sublist.refl _
  | cons q rest ih =>
    obtain ⟨r2, ms⟩ := q
    by_cases h2 : r2 = rid
    · rw [show removeFromRoom ((r2, ms) :: rest) rid sid =
          (if ms.erase sid = [] then rest else (r2, ms.erase sid) :: rest) from by
        simp [removeFromRoom, h2]]
      by_cases he : ms.erase sid = []
      · rw [if_pos he]
        simp only [List.map_cons]
        exact (List.Sublist.refl _).cons _
      · rw [if_neg he]
        simp only [List.map_cons]
        exact (List.Sublist.refl _).cons₂ _
    · rw [show removeFromRoom ((r2, ms) :: rest) rid sid =
          (r2, ms) :: removeFromRoom rest rid sid from by
        simp [removeFromRoom, h2]]
      simp only [List.map_cons]
      exact ih.cons₂ _

theorem lookup_mem {α β : Type} [BEq α] [LawfulBEq α] :
    ∀ (l : List (α × β)) (a : α) (b : β), l.lookup a = some b → (a, b) ∈ l := by
  intro l
  induction l with
  | nil => intro a b h; simp [List.lookup] at h
  | cons p rest ih =>
    obtain ⟨k, v⟩ := p
    intro a b h
    by_cases hak : a = k
    · rw [hak, lookup_cons_self] at h
      injection h with h2
      rw [hak, h2]
      exact List.mem_cons_self _ _
    · rw [lookup_cons_ne k a v rest hak] at h
      exact List.mem_cons_of_mem _ (ih a b h)

theorem roomMembers_mem (rooms : List (String × List Nat)) (r : String) :
    roomMembers rooms r = [] ∨ (r, roomMembers rooms r) ∈ rooms := by
  unfold roomMembers
  cases hl : rooms.lookup r with
  | none => left; rfl
  | some ms => right; exact lookup_mem rooms r ms hl

/-- Server-state invariant maintained by every handler: rooms present in the
map have nonempty member sets; every member's captured room is the room
holding it; room keys are distinct (it is a `Map`); member sets are
duplicate-free (they are `Set`s). -/
def WSInv (σ : WSState) : Prop :=
  (∀ p ∈ σ.rooms, p.2 ≠ []) ∧
  (∀ r c, c ∈ roomMembers σ.rooms r → σ.conns.lookup c = some r) ∧
  (σ.rooms.map Prod.fst).Nodup ∧
  (∀ p ∈ σ.rooms, p.2.Nodup)

theorem wsInv_init : WSInv wsInit := by
  refine ⟨?_, ?_, ?_, ?_⟩
  · intro p hp; simp [wsInit] at hp
  · intro r c hc
    simp [wsInit, roomMembers, List.lookup] at hc
  · simp [wsInit]
  · intro p hp; simp [wsInit] at hp

theorem wsInv_step (σ : WSState) (op : WSOp) (h : WSInv σ) : WSInv (wsStep σ op) := by
  obtain ⟨h1, h2, h3, h4⟩ := h
  cases op with
  | message _ => exact ⟨h1, h2, h3, h4⟩
  | unready sid => exact ⟨h1, h2, h3, h4⟩
  | connect sid room =>
    show WSInv (wsConnect σ sid room)
    unfold wsConnect
    by_cases hex : (σ.conns.lookup sid).isSome
    · simp only [hex, if_true]
      exact ⟨h1, h2, h3, h4⟩
    · simp only [hex, Bool.false_eq_true, if_false]
      have hfresh : σ.conns.lookup sid = none := Option.not_isSome_iff_eq_none.mp hex
      set rid0 := room.getD "lobby" with hrid0
      refine ⟨?_, ?_, ?_, ?_⟩
      · -- nonempty member sets
        intro p hp
        rcases addToRoom_mem_cases σ.rooms rid0 sid p hp with hc | hc | ⟨ms, hm, hc⟩
        · exact h1 p hc
        · rw [hc]; simp
        · rw [hc]
          have hne := h1 (rid0, ms) hm
          by_cases hin : sid ∈ ms <;> simp [hin, hne]
      · -- member consistency
        intro r c hc
        rw [roomMembers_addToRoom σ.rooms rid0 sid r] at hc
        by_cases hr : r = rid0
        · rw [if_pos hr] at hc
          by_cases hin : sid ∈ roomMembers σ.rooms rid0
          · rw [if_pos hin] at hc
            have hold := h2 rid0 c hc
            have hcs : c ≠ sid := by
              intro hcon
              rw [hcon] at hold
              rw [hold] at hfresh
              exact Option.noConfusion hfresh
            rw [lookup_cons_ne sid c rid0 σ.conns hcs, hold, hr]
          · rw [if_neg hin] at hc
            rcases List.mem_append.mp hc with hcm | hcs
            · have hold := h2 rid0 c hcm
              have hcs : c ≠ sid := by
                intro hcon
                rw [hcon] at hold
                rw [hold] at hfresh
                exact Option.noConfusion hfresh
              rw [lookup_cons_ne sid c rid0 σ.conns hcs, hold, hr]
            · have hcsid : c = sid := by simpa using hcs
              rw [hcsid, lookup_cons_self, hr]
        · rw [if_neg hr] at hc
          have hold := h2 r c hc
          have hcs : c ≠ sid := by
            intro hcon
            rw [hcon] at hold
            rw [hold] at hfresh
            exact Option.noConfusion hfresh
          rw [lookup_cons_ne sid c rid0 σ.conns hcs, hold]
      · exact addToRoom_keys_nodup σ.rooms rid0 sid h3
      · -- duplicate-free member sets
        intro p hp
        rcases addToRoom_mem_cases σ.rooms rid0 sid p hp with hc | hc | ⟨ms, hm, hc⟩
        · exact h4 p hc
        · rw [hc]; simp
        · rw [hc]
          have hnd := h4 (rid0, ms) hm
          by_cases hin : sid ∈ ms
          · simpa [hin] using hnd
          · simp only [hin, if_false]
            simp [List.nodup_append, hnd, hin]
  | close sid =>
    show WSInv (wsClose σ sid)
    unfold wsClose
    cases hl : σ.conns.lookup sid with
    | none => exact ⟨h1, h2, h3, h4⟩
    | some rid =>
      refine ⟨?_, ?_, ?_, ?_⟩
      · intro p hp
        rcases removeFromRoom_mem_cases σ.rooms rid sid p hp with hc | ⟨ms, _, hc, hne⟩
        · exact h1 p hc
        · rw [hc]
          simpa using hne
      · intro r c hc
        show (σ.conns.filter (fun p => p.1 != sid)).lookup c = some r
        rw [roomMembers_removeFromRoom σ.rooms rid sid r h3] at hc
        by_cases hr : r = rid
        · rw [if_pos hr] at hc
          have hmm := roomMembers_mem σ.rooms rid
          rcases hmm with hnil | hmem
          · rw [hnil] at hc
            simp at hc
          · have hnd := h4 (rid, roomMembers σ.rooms rid) hmem
            obtain ⟨hcsid, hcm⟩ := (List.Nodup.mem_erase_iff hnd).mp hc
            have hold := h2 rid c hcm
            rw [lookup_filter_ne σ.conns sid c hcsid, hold, hr]
        · rw [if_neg hr] at hc
          have hold := h2 r c hc
          have hcsid : c ≠ sid := by
            intro hcon
            rw [hcon] at hold
            rw [hold] at hl
            injection hl with hx
            exact hr hx
          rw [lookup_filter_ne σ.conns sid c hcsid, hold]
      · exact List.Nodup.sublist (removeFromRoom_keys_sublist σ.rooms rid sid) h3
      · intro p hp
        rcases removeFromRoom_mem_cases σ.rooms rid sid p hp with hc | ⟨ms, hm, hc, _⟩
        · exact h4 p hc
        · rw [hc]
          exact List.Nodup.erase sid (h4 (rid, ms) hm)

theorem wsInv_reach (ops : List WSOp) : WSInv (wsReach ops) := by
  suffices haux : ∀ (os : List WSOp) (σ : WSState), WSInv σ →
      WSInv (os.foldl wsStep σ) by
    exact haux ops wsInit wsInv_init
  intro os
  induction os with
  | nil => intro σ h; exact h
  | cons op os ih =>
    intro σ h
    exact ih (wsStep σ op) (wsInv_step σ op h)

/-- C9: a message from a connected socket is relayed to exactly the sockets
of the sender's captured room that are in the OPEN ready state and are not
the sender; a socket joined to any other room never receives it. -/
theorem C9_message_routing (ops : List WSOp) (sender : Nat) (rid : String)
    (hr : (wsReach ops).conns.lookup sender = some rid) :
    (∀ c, c ∈ wsRecipients (wsReach ops) sender ↔
      (c ∈ roomMembers (wsReach ops).rooms rid ∧ c ∈ (wsReach ops).openS ∧
        c ≠ sender)) ∧
    (∀ r2 c, r2 ≠ rid → c ∈ roomMembers (wsReach ops).rooms r2 →
      c ∉ wsRecipients (wsReach ops) sender) := by
  have hinv := wsInv_reach ops
  have hchar : ∀ c, c ∈ wsRecipients (wsReach ops) sender ↔
      (c ∈ roomMembers (wsReach ops).rooms rid ∧ c ∈ (wsReach ops).openS ∧
        c ≠ sender) := by
    intro c
    show c ∈ (match (wsReach ops).conns.lookup sender with
      | none => []
      | some rid2 => (roomMembers (wsReach ops).rooms rid2).filter
          (fun c2 => c2 != sender && (wsReach ops).openS.contains c2)) ↔ _
    rw [hr]
    rw [List.mem_filter]
    constructor
    · rintro ⟨hm, hb⟩
      simp only [Bool.and_eq_true, bne_iff_ne] at hb
      obtain ⟨hb1, hb2⟩ := hb
      refine ⟨hm, ?_, hb1⟩
      simpa using hb2
    · rintro ⟨hm, ho, hs⟩
      refine ⟨hm, ?_⟩
      simp only [Bool.and_eq_true, bne_iff_ne]
      exact ⟨hs, by simpa using ho⟩
  refine ⟨hchar, ?_⟩
  intro r2 c hne hcm hcr
  have hmem := ((hchar c).mp hcr).1
  have e1 := hinv.2.1 rid c hmem
  have e2 := hinv.2.1 r2 c hcm
  rw [e1] at e2
  injection e2 with hx
  exact hne hx.symm

/-- C9 — witness: three sockets, two rooms; socket 1's message reaches
exactly socket 2 (same room, OPEN, not the sender) and not socket 3. -/
theorem C9_witness :
    (wsReach [WSOp.connect 1 (some "r1"), WSOp.connect 2 (some "r1"),
      WSOp.connect 3 (some "r2")]).conns.lookup 1 = some "r1" ∧
    ((∀ c, c ∈ wsRecipients (wsReach [WSOp.connect 1 (some "r1"),
        WSOp.connect 2 (some "r1"), WSOp.connect 3 (some "r2")]) 1 ↔
      (c ∈ roomMembers (wsReach [WSOp.connect 1 (some "r1"),
          WSOp.connect 2 (some "r1"), WSOp.connect 3 (some "r2")]).rooms "r1" ∧
        c ∈ (wsReach [WSOp.connect 1 (some "r1"), WSOp.connect 2 (some "r1"),
          WSOp.connect 3 (some "r2")]).openS ∧ c ≠ 1)) ∧
     (∀ r2 c, r2 ≠ "r1" →
        c ∈ roomMembers (wsReach [WSOp.connect 1 (some "r1"),
          WSOp.connect 2 (some "r1"), WSOp.connect 3 (some "r2")]).rooms r2 →
        c ∉ wsRecipients (wsReach [WSOp.connect 1 (some "r1"),
          WSOp.connect 2 (some "r1"), WSOp.connect 3 (some "r2")]) 1)) :=
  ⟨by decide, C9_message_routing [WSOp.connect 1 (some "r1"),
    WSOp.connect 2 (some "r1"), WSOp.connect 3 (some "r2")] 1 "r1" (by decide)⟩

/-- C10: in every reachable server state, every room present in the `rooms`
map has a nonempty socket set — connections create the set before inserting,
closes delete the entry once the set empties. -/
theorem C10_rooms_nonempty (ops : List WSOp) :
    ∀ p ∈ (wsReach ops).rooms, p.2 ≠ [] :=
  (wsInv_reach ops).1

/-- C10 — witness: after one connection, the lobby is present and
nonempty. -/
theorem C10_witness :
    (("lobby", [1]) ∈ (wsReach [WSOp.connect 1 none]).rooms) ∧
    ([1] : List Nat) ≠ [] :=
  ⟨by decide, C10_rooms_nonempty [WSOp.connect 1 none] ("lobby", [1]) (by decide)⟩
